import Mathlib

/-!
Verification of the ppt-doc-compressor package-transformation pipeline.

The TypeScript source is shallowly embedded: JavaScript strings are modelled
as `List Char`, JSZip archives as association lists from path to blob,
JavaScript `number` arithmetic as exact rational arithmetic, and the
browser-only image decode/encode primitive (Canvas) as an abstract codec
supplied as a parameter, exactly as the spec treats it (an external
capability with a bytes-in/bytes-out contract).
-/

namespace PDC

/-- JavaScript strings, modelled as lists of characters. -/
abbrev Str := List Char

/-- JS `String.prototype.toLowerCase` (ASCII range, as used by the sources). -/
def toLowerStr (s : Str) : Str := s.map Char.toLower

/-- JS `String.prototype.split` with a single-character separator:
`"a/b".split("/") = ["a","b"]`, `"".split("/") = [""]`. -/
def jsSplit (sep : Char) : Str → List Str
  | [] => [[]]
  | c :: rest =>
    if c = sep then [] :: jsSplit sep rest
    else
      match jsSplit sep rest with
      | [] => [[c]]
      | s :: ss => (c :: s) :: ss

/-- JS `s.split(sep).pop() ?? ""`: the last segment of a split. -/
def lastSeg (sep : Char) (s : Str) : Str := (jsSplit sep s).getLastD []

/-- `path.split(".").pop()?.toLowerCase() ?? ""` — the lower-cased extension,
as computed by `isRasterImage` in processor.ts. -/
def fileExtLower (path : Str) : Str := toLowerStr (lastSeg '.' path)

/-- `path.substring(path.lastIndexOf("/") + 1)` — the filename component,
as computed by `updateRelationships` in processor.ts. -/
def lastPathSeg (p : Str) : Str := (p.reverse.takeWhile (fun c => c ≠ '/')).reverse

/-- JS `String.prototype.startsWith`. -/
def jsStartsWith (pat s : Str) : Bool := pat.isPrefixOf s

/-- JS `String.prototype.endsWith`. -/
def jsEndsWith (pat s : Str) : Bool := pat.isSuffixOf s

/-- JS `String.prototype.includes`. -/
def occurs (pat s : Str) : Bool := s.tails.any (fun t => pat.isPrefixOf t)

/-- Matching of the regex `/\.[^.]+$/`: splits a path into the part before the
final dot and the non-empty, dot-free part after it, when that regex matches. -/
def splitLastDot (p : Str) : Option (Str × Str) :=
  let tailRev := p.reverse.takeWhile (fun c => c ≠ '.')
  if tailRev.length < p.length ∧ tailRev ≠ [] then
    some (p.take (p.length - tailRev.length - 1), tailRev.reverse)
  else none

/-- `mediaPath.replace(/\.[^.]+$/, "." + newExt)` in processor.ts. -/
def replaceLastExt (path : Str) (newExt : Str) : Str :=
  match splitLastDot path with
  | some pe => pe.1 ++ '.' :: newExt
  | none => path

/-- `file.name.replace(/(\.[^.]+)$/, "_compressed$1")` in processor.ts. -/
def compressedFilename (name : Str) : Str :=
  match splitLastDot name with
  | some pe => pe.1 ++ "_compressed.".data ++ pe.2
  | none => name

/-- JS `Array.prototype.join(sep)`. -/
def joinWith (sep : Str) : List Str → Str
  | [] => []
  | [x] => x
  | x :: y :: xs => x ++ sep ++ joinWith sep (y :: xs)

/-! ### EMU / pixel conversion (src/utils/emu.ts) -/

/-- JS `Math.round`: rounds half toward positive infinity. -/
def jsRound (x : ℚ) : ℤ := ⌊x + 1/2⌋

/-- English Metric Units per inch — the base unit in Office Open XML. -/
def EMU_PER_INCH : ℚ := 914400

/-- `emuToPixels` from src/utils/emu.ts: `Math.round((emu / EMU_PER_INCH) * dpi)`.
JS number arithmetic is modelled as exact rational arithmetic. -/
def emuToPixels (emu : ℚ) (dpi : ℚ) : ℤ := jsRound (emu / EMU_PER_INCH * dpi)

/-! ### JS `String.prototype.replaceAll` with a plain-string pattern

Left-to-right, non-overlapping replacement.  Implemented with an explicit
fuel argument (one unit per scanning step, each of which consumes at least
one character) so that the function is structurally recursive and hence
computable by the kernel. -/

def raAux (pat rep : Str) : Nat → Str → Str
  | 0, s => s
  | n + 1, s =>
    match s with
    | [] => []
    | c :: rest =>
      if pat ≠ [] ∧ pat.isPrefixOf (c :: rest) then
        rep ++ raAux pat rep n ((c :: rest).drop pat.length)
      else
        c :: raAux pat rep n rest

/-- `s.replaceAll(pat, rep)` for a non-empty plain-string `pat`. -/
def replaceAll (pat rep s : Str) : Str := raAux pat rep s.length s

/-- The fragments of `s` between the (left-to-right, non-overlapping)
occurrences of `pat`; the same scan as `raAux`, recording the text kept
verbatim instead of the replacement. -/
def spAux (pat : Str) : Nat → Str → List Str
  | 0, s => [s]
  | n + 1, s =>
    match s with
    | [] => [[]]
    | c :: rest =>
      if pat ≠ [] ∧ pat.isPrefixOf (c :: rest) then
        [] :: spAux pat n ((c :: rest).drop pat.length)
      else
        match spAux pat n rest with
        | [] => [[c]]
        | f :: fs => (c :: f) :: fs

/-- Fragments of `s` between occurrences of `pat`. -/
def splitOnPat (pat s : Str) : List Str := spAux pat s.length s

/-! ### The in-memory archive (JSZip, as used by processor.ts) -/

/-- A binary or text entry: its bytes plus the MIME type carried by a JS
`Blob` (empty for text entries). -/
structure Blob where
  data : Str
  mime : Str := []
deriving DecidableEq, Repr

/-- `blob.size` — the byte length. -/
def Blob.size (b : Blob) : Nat := b.data.length

/-- The archive: an insertion-ordered mapping from entry path to content. -/
abbrev Archive := List (Str × Blob)

/-- `zip.file(path)` (read). -/
def lookupEntry : Archive → Str → Option Blob
  | [], _ => none
  | e :: rest, p => if e.1 = p then some e.2 else lookupEntry rest p

/-- `zip.file(path, content)` — upsert: replace in place, else append. -/
def writeEntry : Archive → Str → Blob → Archive
  | [], p, b => [(p, b)]
  | e :: rest, p, b => if e.1 = p then (p, b) :: rest else e :: writeEntry rest p b

/-- `zip.remove(path)`. -/
def removeEntry (z : Archive) (p : Str) : Archive := z.filter (fun e => e.1 ≠ p)

/-- Archive paths are unique (OOXML packages have unique entry names). -/
def pathsNodup (z : Archive) : Prop := (z.map Prod.fst).Nodup

/-- JS `Map` read (insertion-ordered association list). -/
def mapGet {β : Type} : List (Str × β) → Str → Option β
  | [], _ => none
  | e :: rest, k => if e.1 = k then some e.2 else mapGet rest k

/-- JS `Map.set`: replace in place, else append. -/
def mapSet {β : Type} : List (Str × β) → Str → β → List (Str × β)
  | [], k, v => [(k, v)]
  | e :: rest, k, v => if e.1 = k then (k, v) :: rest else e :: mapSet rest k v

/-- JS `Set.add`: append if not already present. -/
def addToSet (s : List Str) (x : Str) : List Str := if x ∈ s then s else s ++ [x]

/-! ### Relative path resolution (pptx-parser.ts / docx-parser.ts, `resolvePath`) -/

/-- The component walk of `resolvePath`: `..` pops the last segment
(`Array.prototype.pop`, a no-op on an empty array) and `.` is ignored. -/
def walkRel (parts : List Str) : List Str → List Str
  | [] => parts
  | p :: rest =>
    if p = "..".data then walkRel parts.dropLast rest
    else if p = ".".data then walkRel parts rest
    else walkRel (parts ++ [p]) rest

/-- `resolvePath` from pptx-parser.ts and docx-parser.ts (identical in both). -/
def resolvePath (base relative : Str) : Str :=
  if !jsStartsWith "..".data relative && !jsStartsWith "./".data relative then
    base ++ '/' :: relative
  else
    joinWith "/".data (walkRel (jsSplit '/' base) (jsSplit '/' relative))

/-! ### Dimension records and the maximum-merge step
(pptx-parser.ts `extractPptxImageDims`, docx-parser.ts `extractDocxImageDims`) -/

/-- Pixel dimensions stored for one media path. -/
structure ImageDimensions where
  width : ℤ
  height : ℤ
deriving DecidableEq, Repr

/-- Recording one observed size for `mediaPath`: keep the component-wise
maximum with the existing entry, if any (the shared tail of both extractors). -/
def mergeObservation (imageDims : List (Str × ImageDimensions)) (mediaPath : Str)
    (widthPx heightPx : ℤ) : List (Str × ImageDimensions) :=
  match mapGet imageDims mediaPath with
  | some existing =>
      mapSet imageDims mediaPath ⟨max existing.width widthPx, max existing.height heightPx⟩
  | none => mapSet imageDims mediaPath ⟨widthPx, heightPx⟩

/-! ### Content types (src/core/content-types.ts) -/

/-- The target encoding formats known to the registrar. -/
inductive ImageFormat
  | webp
  | jpeg
  | png
deriving DecidableEq, Repr

/-- The `CONTENT_TYPES` table: extension and MIME type per format. -/
def contentTypesFor : ImageFormat → Str × Str
  | .webp => ("webp".data, "image/webp".data)
  | .jpeg => ("jpeg".data, "image/jpeg".data)
  | .png => ("png".data, "image/png".data)

/-- JS `\s` (ASCII range). -/
def isWsChar (c : Char) : Bool :=
  c = ' ' || c = '\t' || c = '\n' || c = '\r' || c = '\x0b' || c = '\x0c'

/-- Case-folded prefix stripping (both sides compared through `toLower`),
for the case-insensitive regex test. -/
def stripPrefixFold : Str → Str → Option Str
  | [], s => some s
  | _ :: _, [] => none
  | p :: ps, c :: cs =>
    if c.toLower = p.toLower then stripPrefixFold ps cs else none

/-- One anchored attempt of the regex `/Extension\s*=\s*"<ext>"/i` at the
start of `s`. -/
def matchExtAt (ext : Str) (s : Str) : Bool :=
  match stripPrefixFold "Extension".data s with
  | none => false
  | some r1 =>
    match r1.dropWhile isWsChar with
    | '=' :: r2 =>
      match r2.dropWhile isWsChar with
      | '"' :: r3 =>
        match stripPrefixFold ext r3 with
        | some ('"' :: _) => true
        | _ => false
      | _ => false
    | _ => false

/-- The registrar's presence test: `new RegExp('Extension\\s*=\\s*"' + ext + '"', "i").test(xml)`. -/
def extDeclTest (ext xml : Str) : Bool := xml.tails.any (matchExtAt ext)

/-- Number of positions of `xml` at which the extension declaration matches
(used to state "exactly one `Default` entry"). -/
def countExtDecl (ext xml : Str) : Nat := xml.tails.countP (matchExtAt ext)

/-- Does the xml contain a match of `/<Types[^>]*>/`? -/
def hasTypesTag (s : Str) : Bool :=
  s.tails.any (fun t => "<Types".data.isPrefixOf t && t.contains '>')

/-- `xml.replace(/(<Types[^>]*>)/, "$1" + entry)`: insert `entry` right after
the first match of the root opening tag (the xml is returned unchanged when
the regex does not match). -/
def insertAfterRoot (entry : Str) : Str → Str
  | [] => []
  | c :: rest =>
    if "<Types".data.isPrefixOf (c :: rest) && (c :: rest).contains '>' then
      (c :: rest).takeWhile (fun x => x ≠ '>') ++ '>' :: entry
        ++ ((c :: rest).dropWhile (fun x => x ≠ '>')).drop 1
    else
      c :: insertAfterRoot entry rest

/-- The path of the content-types part. -/
def ctPath : Str := "[Content_Types].xml".data

/-- The injected declaration `<Default Extension="ext" ContentType="mime"/>`. -/
def defaultEntryFor (ext mime : Str) : Str :=
  "<Default Extension=\"".data ++ ext ++ "\" ContentType=\"".data ++ mime ++ "\"/>".data

/-- `updateContentTypes` from src/core/content-types.ts. -/
def updateContentTypes (zip : Archive) (renamedExtensions : List Str)
    (format : ImageFormat) : Archive :=
  if renamedExtensions = [] then zip
  else
    match lookupEntry zip ctPath with
    | none => zip
    | some ctFile =>
      let em := contentTypesFor format
      if extDeclTest em.1 ctFile.data then zip
      else writeEntry zip ctPath ⟨insertAfterRoot (defaultEntryFor em.1 em.2) ctFile.data, []⟩

/-! ### The image transcoder (src/core/image-compressor.ts, WebP/JPEG version)

The Canvas decode/encode primitive is the external capability of the spec;
it is supplied as an abstract codec. `load` yields the natural dimensions of
a decodable blob (`loadImage`), `encode` is `canvasToBlob` on the image drawn
at the given final size; `none` models the decode/encode failure paths. -/

structure Codec where
  load : Blob → Option (ℤ × ℤ)
  encode : Blob → ℤ → ℤ → Str → ℚ → Option Blob

/-- `compressImage` from src/core/image-compressor.ts: resize to at most the
target (never upscale), try WebP, then JPEG when a resize happened, and adopt
a result only when strictly smaller than the input. -/
def compressImage (codec : Codec) (imageBlob : Blob) (targetWidth targetHeight : ℤ)
    (quality : ℚ) : Option (Blob × Bool) := do
  let nat ← codec.load imageBlob
  let finalWidth := min targetWidth nat.1
  let finalHeight := min targetHeight nat.2
  let webpBlob ← codec.encode imageBlob finalWidth finalHeight "image/webp".data quality
  if webpBlob.size < imageBlob.size then
    pure (webpBlob, true)
  else if finalWidth < nat.1 ∨ finalHeight < nat.2 then do
    let jpegBlob ← codec.encode imageBlob finalWidth finalHeight "image/jpeg".data quality
    if jpegBlob.size < imageBlob.size then pure (jpegBlob, true)
    else pure (imageBlob, false)
  else
    pure (imageBlob, false)

/-! ### The orchestrator (src/core/processor.ts) -/

/-- Raster image extensions that the processor can compress. -/
def RASTER_EXTENSIONS : List Str :=
  ["png", "jpg", "jpeg", "gif", "bmp", "tiff", "tif"].map String.data

/-- `isRasterImage` from processor.ts. -/
def isRasterImage (path : Str) : Bool := RASTER_EXTENSIONS.contains (fileExtLower path)

/-- The mutable state of the per-media loop in `processDocument`. -/
structure LoopState where
  zip : Archive
  renames : List (Str × Str)
  renamedExtensions : List Str
  imagesCompressed : Nat
deriving DecidableEq, Repr

/-- `const newExt = compressedBlob.type === "image/webp" ? "webp" : "jpeg"`. -/
def newExtOf (compressedBlob : Blob) : Str :=
  if compressedBlob.mime = "image/webp".data then "webp".data else "jpeg".data

/-- One iteration of the media loop of `processDocument` (processor.ts,
the body of `for (const mediaPath of mediaFiles)`). -/
def stepMedia (codec : Codec) (quality : ℚ) (imageDims : List (Str × ImageDimensions))
    (st : LoopState) (mediaPath : Str) : Except Str LoopState :=
  match lookupEntry st.zip mediaPath with
  | none => .ok st
  | some imageFile =>
    let originalBlob := imageFile
    let dims := (mapGet imageDims mediaPath).getD ⟨99999, 99999⟩
    match compressImage codec originalBlob dims.width dims.height quality with
    | none => .error "Failed to load image".data
    | some (compressedBlob, wasCompressed) =>
      if wasCompressed then
        let newExt := newExtOf compressedBlob
        let oldExt := fileExtLower mediaPath
        let newPath := replaceLastExt mediaPath newExt
        let zip1 := writeEntry (removeEntry st.zip mediaPath) newPath compressedBlob
        if newPath ≠ mediaPath then
          .ok ⟨zip1, mapSet st.renames mediaPath newPath,
               addToSet st.renamedExtensions oldExt, st.imagesCompressed + 1⟩
        else
          .ok ⟨zip1, st.renames, st.renamedExtensions, st.imagesCompressed + 1⟩
      else
        .ok st

/-- The media loop of `processDocument`. -/
def mediaLoop (codec : Codec) (quality : ℚ) (imageDims : List (Str × ImageDimensions))
    (zip : Archive) (mediaFiles : List Str) : Except Str LoopState :=
  mediaFiles.foldlM (stepMedia codec quality imageDims) ⟨zip, [], [], 0⟩

/-- The media enumeration of `processDocument` (step 2 of the pipeline). -/
def mediaFilesOf (zip : Archive) (mediaPfx : Str) : List Str :=
  (zip.map Prod.fst).filter (fun p => jsStartsWith mediaPfx p && isRasterImage p)

/-- One application of the rename map to one rels text (the inner loop of
`updateRelationships`): `if (xml.includes(old)) xml = xml.replaceAll(old, new)`. -/
def applyRenamesToXml (filenameRenames : List (Str × Str)) (xml : Str) : Str × Bool :=
  filenameRenames.foldl
    (fun acc r => if occurs r.1 acc.1 then (replaceAll r.1 r.2 acc.1, true) else acc)
    (xml, false)

/-- The per-entry effect of `updateRelationships` on a rels blob. -/
def relsTransform (filenameRenames : List (Str × Str)) (b : Blob) : Blob :=
  let res := applyRenamesToXml filenameRenames b.data
  if res.2 then ⟨res.1, []⟩ else b

/-- The body of the `for (const relsPath of relsFiles)` loop of
`updateRelationships`: re-read the part, apply the renames, persist if changed. -/
def relsStep (filenameRenames : List (Str × Str)) (z : Archive) (relsPath : Str) : Archive :=
  match lookupEntry z relsPath with
  | none => z
  | some relsFile =>
    let res := applyRenamesToXml filenameRenames relsFile.data
    if res.2 then writeEntry z relsPath ⟨res.1, []⟩ else z

/-- `updateRelationships` from processor.ts. -/
def updateRelationships (zip : Archive) (renames : List (Str × Str)) : Archive :=
  let filenameRenames := renames.map (fun r => (lastPathSeg r.1, lastPathSeg r.2))
  let relsFiles := (zip.map Prod.fst).filter (fun p => jsEndsWith ".rels".data p)
  relsFiles.foldl (relsStep filenameRenames) zip

/-- The result of processing one document. -/
structure ProcResult where
  zip : Archive
  imagesProcessed : Nat
  imagesTotal : Nat
  filename : Str
deriving DecidableEq, Repr

/-- The external collaborators of the orchestrator: the codec and the two
DOM-walking dimension extractors (whose XML traversal is outside this
embedding; their merge step `mergeObservation` is modelled above). -/
structure Deps where
  codec : Codec
  parsePptxImages : Archive → ℚ → List (Str × ImageDimensions)
  parseDocxImages : Archive → ℚ → List (Str × ImageDimensions)

/-- `processDocument` from src/core/processor.ts.

Modelled from the spec: the snapshot's processor.ts calls `updateContentTypes`
without the target-format argument that the snapshot's content-types.ts
requires (the two files come from adjacent versions); per the spec the
registrar receives "the set of file extensions newly introduced by renames,
and the target encoded format's extension/MIME pair", so the format is
threaded through as an explicit argument. -/
def processDocument (deps : Deps) (format : ImageFormat) (name : Str) (zip : Archive)
    (quality dpi : ℚ) : Except Str ProcResult :=
  let isPptx := jsEndsWith ".pptx".data (toLowerStr name)
  let isDocx := jsEndsWith ".docx".data (toLowerStr name)
  if !isPptx && !isDocx then
    .error ("Unsupported file type: ".data ++ name)
  else
    let imageDims := if isPptx then deps.parsePptxImages zip dpi else deps.parseDocxImages zip dpi
    let mediaPfx := if isPptx then "ppt/media/".data else "word/media/".data
    let mediaFiles := mediaFilesOf zip mediaPfx
    match mediaLoop deps.codec quality imageDims zip mediaFiles with
    | .error e => .error e
    | .ok st =>
      let zip2 :=
        if st.renames ≠ [] then
          updateContentTypes (updateRelationships st.zip st.renames) st.renamedExtensions format
        else st.zip
      .ok ⟨zip2, st.imagesCompressed, mediaFiles.length, compressedFilename name⟩

/-- The extensions present among archive entries under a media directory. -/
def mediaDirExts (mpfx : Str) (z : Archive) : List Str :=
  ((z.map Prod.fst).filter (fun p => jsStartsWith mpfx p)).map fileExtLower

/-- A codec whose WebP re-encode is larger than the 10-byte source but whose
JPEG fallback is 4 bytes: the WebP attempt is rejected and the JPEG fallback
adopted. -/
def jpegFallbackCodec : Codec where
  load := fun _ => some (100, 100)
  encode := fun _ _ _ mime _ =>
    if mime = "image/webp".data then some ⟨List.replicate 20 'x', "image/webp".data⟩
    else some ⟨"tiny".data, "image/jpeg".data⟩

/-- A 10-byte media blob. -/
def mediaDemoBlob : Blob := ⟨List.replicate 10 'o', []⟩

/-- The 4-byte JPEG fallback produced by `jpegFallbackCodec`. -/
def jpegDemoBlob : Blob := ⟨"tiny".data, "image/jpeg".data⟩

/-- Display dimensions forcing a resize of the demo media entry. -/
def mediaDemoDims : List (Str × ImageDimensions) := [("ppt/media/a.jpeg".data, ⟨4, 4⟩)]

/-- A codec whose re-encodes are always 99 bytes: never smaller, so nothing
is ever adopted. -/
def noGainCodec : Codec where
  load := fun _ => some (100, 100)
  encode := fun _ _ _ mime _ => some ⟨List.replicate 99 'x', mime⟩

/-- Dependencies around `noGainCodec` with empty dimension maps. -/
def noGainDeps : Deps where
  codec := noGainCodec
  parsePptxImages := fun _ _ => []
  parseDocxImages := fun _ _ => []

/-- A content-types text declaring png, webp and jpeg exactly once each. -/
def ctFullBlob : Blob :=
  ⟨("<Types><Default Extension=\"png\" ContentType=\"image/png\"/>" ++
    "<Default Extension=\"webp\" ContentType=\"image/webp\"/>" ++
    "<Default Extension=\"jpeg\" ContentType=\"image/jpeg\"/></Types>").data, []⟩

/-- The same word-processing archive with a complete content-types part. -/
def c3FullZip : Archive := [(ctPath, ctFullBlob), ("word/media/a.png".data, mediaDemoBlob)]

/-- A 3-byte jpeg media blob. -/
def smallJpegBlob : Blob := ⟨"abc".data, []⟩

/-- A presentation archive holding `a.jpg` (10 bytes) and `a.jpeg` (3 bytes):
renaming `a.jpg`'s adopted JPEG fallback to `a.jpeg` overwrites the latter. -/
def clobberZip : Archive :=
  [("ppt/media/a.jpg".data, mediaDemoBlob), ("ppt/media/a.jpeg".data, smallJpegBlob)]

/-- Dependencies around `jpegFallbackCodec` with display dimensions forcing a
resize of both media entries of `clobberZip`. -/
def clobberDeps : Deps where
  codec := jpegFallbackCodec
  parsePptxImages := fun _ _ =>
    [("ppt/media/a.jpg".data, ⟨4, 4⟩), ("ppt/media/a.jpeg".data, ⟨4, 4⟩)]
  parseDocxImages := fun _ _ => []

/-- An arbitrary dependency bundle used to instantiate universally quantified
statements at concrete inputs. -/
def depsArb : Deps where
  codec := { load := fun _ => none, encode := fun _ _ _ _ _ => none }
  parsePptxImages := fun _ _ => []
  parseDocxImages := fun _ _ => []

/-- A relationship-part path used to instantiate universal statements. -/
def relsDemoPath : Str := "ppt/slides/_rels/slide1.xml.rels".data

/-- A relationship-part text referencing `image1.png`. -/
def relsDemoBlob : Blob := ⟨"<R Id=\"rId2\" Target=\"../media/image1.png\"/>".data, []⟩

/-- A one-entry archive holding the demo relationship part. -/
def relsDemoZip : Archive := [(relsDemoPath, relsDemoBlob)]

/-- A minimal content-types text without any `Default` entry. -/
def ctDemoBlob : Blob := ⟨"<Types></Types>".data, []⟩

/-- A one-entry archive holding the demo content-types part. -/
def ctDemoZip : Archive := [(ctPath, ctDemoBlob)]

/-- A word-processing archive with one png media entry and a content-types
part lacking any `Default` declaration. -/
def c3Zip : Archive := [(ctPath, ctDemoBlob), ("word/media/a.png".data, mediaDemoBlob)]

deriving instance DecidableEq for Except

/-! ## Supporting lemmas -/

theorem toLower_eq_dot {c : Char} (h : c.toLower = '.') : c = '.' := by
  unfold Char.toLower at h
  by_cases hc : c.toNat ≥ 65 ∧ c.toNat ≤ 90
  · rw [if_pos hc] at h
    exfalso
    have hv : (c.toNat + 32).isValidChar := by constructor; omega
    have h1 : (Char.ofNat (c.toNat + 32)).toNat = c.toNat + 32 := by
      rw [Char.ofNat, dif_pos hv]; rfl
    rw [h] at h1
    have h2 : ('.' : Char).toNat = 46 := by decide
    omega
  · rw [if_neg hc] at h
    exact h

theorem occurs_nil (pat : Str) : occurs pat [] = pat.isEmpty := by
  cases pat <;> rfl

theorem occurs_cons (pat : Str) (c : Char) (rest : Str) :
    occurs pat (c :: rest) = (pat.isPrefixOf (c :: rest) || occurs pat rest) := by
  simp [occurs, List.tails]

theorem jsSplit_ne_nil (sep : Char) (s : Str) : jsSplit sep s ≠ [] := by
  induction s with
  | nil => simp [jsSplit]
  | cons c rest ih =>
    simp only [jsSplit]
    split
    · simp
    · split
      · simp
      · simp

theorem jsSplit_no_sep (sep : Char) (s : Str) (h : sep ∉ s) : jsSplit sep s = [s] := by
  induction s with
  | nil => rfl
  | cons c rest ih =>
    simp only [List.mem_cons, not_or] at h
    simp only [jsSplit]
    rw [if_neg (fun hc => h.1 hc.symm)]
    rw [ih h.2]

theorem lastSeg_no_sep (sep : Char) (s : Str) (h : sep ∉ s) : lastSeg sep s = s := by
  unfold lastSeg
  rw [jsSplit_no_sep sep s h]
  rfl

theorem getLastD_cons_of_ne_nil {α : Type} {l : List α} (x d : α) (h : l ≠ []) :
    (x :: l).getLastD d = l.getLastD d := by
  cases l with
  | nil => exact absurd rfl h
  | cons y t => simp [List.getLastD_cons]

theorem jsSplit_length_of_mem (sep : Char) (s : Str) (h : sep ∈ s) :
    2 ≤ (jsSplit sep s).length := by
  induction s with
  | nil => simp at h
  | cons c rest ih =>
    simp only [jsSplit]
    by_cases hc : c = sep
    · rw [if_pos hc]
      have h1 : 0 < (jsSplit sep rest).length := List.length_pos.mpr (jsSplit_ne_nil sep rest)
      simp only [List.length_cons]
      omega
    · rw [if_neg hc]
      have hm : sep ∈ rest := by
        rcases List.mem_cons.mp h with h1 | h1
        · exact absurd h1.symm hc
        · exact h1
      have h2 := ih hm
      rcases hsp : jsSplit sep rest with _ | ⟨f, fs⟩
      · exact absurd hsp (jsSplit_ne_nil sep rest)
      · rw [hsp] at h2
        simpa using h2

theorem lastSeg_append_sep (sep : Char) (a b : Str) :
    lastSeg sep (a ++ sep :: b) = lastSeg sep b := by
  unfold lastSeg
  induction a with
  | nil =>
    simp only [List.nil_append, jsSplit, if_pos rfl]
    exact getLastD_cons_of_ne_nil _ _ (jsSplit_ne_nil sep b)
  | cons c a' ih =>
    simp only [List.cons_append, jsSplit]
    by_cases hc : c = sep
    · rw [if_pos hc, getLastD_cons_of_ne_nil _ _ (jsSplit_ne_nil sep _)]
      exact ih
    · rw [if_neg hc]
      have hm : sep ∈ a' ++ sep :: b := by simp
      rcases hsp : jsSplit sep (a' ++ sep :: b) with _ | ⟨f, fs⟩
      · exact absurd hsp (jsSplit_ne_nil sep _)
      · have hlen := jsSplit_length_of_mem sep _ hm
        rw [hsp] at hlen
        simp only [List.length_cons] at hlen
        have hfs : fs ≠ [] := by
          cases fs with
          | nil => simp at hlen
          | cons _ _ => simp
        rw [hsp, getLastD_cons_of_ne_nil _ _ hfs] at ih
        rw [getLastD_cons_of_ne_nil _ _ hfs]
        exact ih

theorem fileExtLower_append_dot (a ext : Str) (hext : '.' ∉ ext) :
    fileExtLower (a ++ '.' :: ext) = toLowerStr ext := by
  unfold fileExtLower
  rw [lastSeg_append_sep, lastSeg_no_sep _ _ hext]

/-- If the lower-cased name ends in `.ext` for a dot-free, already-lower-case
`ext`, then the extension computed by `isRasterImage`-style splitting is `ext`. -/
theorem fileExtLower_of_lower_endsWith {name ext : Str}
    (h : jsEndsWith ('.' :: ext) (toLowerStr name) = true)
    (hdot : '.' ∉ ext) : fileExtLower name = ext := by
  unfold jsEndsWith at h
  rw [List.isSuffixOf_iff_suffix] at h
  obtain ⟨t, ht⟩ := h
  unfold toLowerStr at ht
  obtain ⟨t', w, hname, _, hw⟩ := List.map_eq_append_iff.mp ht.symm
  cases w with
  | nil => simp at hw
  | cons c w' =>
    simp only [List.map_cons, List.cons.injEq] at hw
    have hc : c = '.' := toLower_eq_dot hw.1
    have hw' : '.' ∉ w' := by
      intro hmem
      apply hdot
      rw [← hw.2]
      have : Char.toLower '.' = '.' := by decide
      exact this ▸ List.mem_map_of_mem Char.toLower hmem
    subst hc
    rw [hname, fileExtLower_append_dot _ _ hw']
    rw [show toLowerStr w' = ext from hw.2]

/-! ## C5 and C6: EMU to pixel conversion -/

/-- C5: for all non-negative EMU value `e` and DPI `d`,
`emuToPixels(e, d) = round(e / 914400 * d)` (JS `Math.round` agrees with the
mathematical round-half-up), and `emuToPixels(914400, 96) = 96`. -/
theorem c5_emu_to_pixels (e d : ℚ) (he : 0 ≤ e) (hd : 0 ≤ d) :
    emuToPixels e d = round (e / 914400 * d) ∧ emuToPixels 914400 96 = 96 := by
  constructor
  · unfold emuToPixels jsRound EMU_PER_INCH
    rw [round_eq]
  · unfold emuToPixels jsRound EMU_PER_INCH
    norm_num

theorem c5_witness :
    (0 : ℚ) ≤ 914400 ∧ (0 : ℚ) ≤ 96 ∧
      (emuToPixels 914400 96 = round ((914400 : ℚ) / 914400 * 96) ∧
        emuToPixels 914400 96 = 96) :=
  ⟨by norm_num, by norm_num, c5_emu_to_pixels 914400 96 (by norm_num) (by norm_num)⟩

/-- C6 counterexample: at extent `cy = 3429000` EMU and DPI 150 the code
computes `Math.round(562.5) = 563`, not `562`. -/
theorem c6_counterexample :
    emuToPixels 3429000 150 = 563 ∧ ¬ emuToPixels 3429000 150 = 562 := by
  have h : emuToPixels 3429000 150 = 563 := by
    unfold emuToPixels jsRound EMU_PER_INCH
    norm_num
  exact ⟨h, by rw [h]; decide⟩

/-- C6 amended: a declared extent `cx=4572000, cy=3429000` EMU at DPI 150
yields a computed target of 750 × 563 pixels (the height is exactly 562.5
pixels and `Math.round` rounds halves up). -/
theorem c6_amended : emuToPixels 4572000 150 = 750 ∧ emuToPixels 3429000 150 = 563 := by
  constructor <;> (unfold emuToPixels jsRound EMU_PER_INCH; norm_num)

/-! ## C7: relative path resolution -/

/-- C7: a target that does not begin with `..` or `./` resolves to
`base ++ "/" ++ target`; otherwise the target is walked component-by-component
with `..` popping the last segment and `.` ignored — in particular
`"../media/image1.png"` resolved from `"ppt/slides"` is `"ppt/media/image1.png"`
and `"media/image1.png"` resolved from `"word"` is `"word/media/image1.png"`. -/
theorem c7_resolve_path (base target : Str)
    (h1 : jsStartsWith "..".data target = false)
    (h2 : jsStartsWith "./".data target = false) :
    resolvePath base target = base ++ '/' :: target ∧
      resolvePath "ppt/slides".data "../media/image1.png".data = "ppt/media/image1.png".data ∧
      resolvePath "word".data "media/image1.png".data = "word/media/image1.png".data := by
  refine ⟨?_, by decide, by decide⟩
  unfold resolvePath
  rw [h1, h2]
  rfl

theorem c7_witness :
    jsStartsWith "..".data "media/image1.png".data = false ∧
      jsStartsWith "./".data "media/image1.png".data = false ∧
      (resolvePath "word".data "media/image1.png".data =
          "word".data ++ '/' :: "media/image1.png".data ∧
        resolvePath "ppt/slides".data "../media/image1.png".data =
          "ppt/media/image1.png".data ∧
        resolvePath "word".data "media/image1.png".data = "word/media/image1.png".data) :=
  ⟨by decide, by decide, c7_resolve_path _ _ (by decide) (by decide)⟩

/-! ## C8: maximum-merge of dimension observations -/

theorem mapGet_mapSet_self {β : Type} (m : List (Str × β)) (k : Str) (v : β) :
    mapGet (mapSet m k v) k = some v := by
  induction m with
  | nil => simp [mapSet, mapGet]
  | cons e rest ih =>
    simp only [mapSet]
    by_cases he : e.1 = k
    · rw [if_pos he]
      simp [mapGet]
    · rw [if_neg he]
      simp only [mapGet, if_neg he]
      exact ih

theorem mapSet_mapSet {β : Type} (m : List (Str × β)) (k : Str) (v v' : β) :
    mapSet (mapSet m k v) k v' = mapSet m k v' := by
  induction m with
  | nil => simp [mapSet]
  | cons e rest ih =>
    simp only [mapSet]
    by_cases he : e.1 = k
    · rw [if_pos he]
      simp [mapSet, he]
    · rw [if_neg he]
      simp only [mapSet, if_neg he]
      rw [ih]

theorem mergeObservation_of_get_none (m : List (Str × ImageDimensions)) (p : Str)
    (w h : ℤ) (hnone : mapGet m p = none) :
    mergeObservation m p w h = mapSet m p ⟨w, h⟩ := by
  unfold mergeObservation
  rw [hnone]

theorem mergeObservation_of_get_some (m : List (Str × ImageDimensions)) (p : Str)
    (w h : ℤ) (e : ImageDimensions) (hsome : mapGet m p = some e) :
    mergeObservation m p w h = mapSet m p ⟨max e.width w, max e.height h⟩ := by
  unfold mergeObservation
  rw [hsome]

/-- C8: when the same media path receives several dimension observations, the
stored value is the component-wise maximum, and recording two observations in
either order produces the same dimension map. -/
theorem c8_merge_max (m : List (Str × ImageDimensions)) (p : Str) (w1 h1 w2 h2 : ℤ)
    (hnone : mapGet m p = none) :
    mergeObservation (mergeObservation m p w1 h1) p w2 h2 =
        mergeObservation (mergeObservation m p w2 h2) p w1 h1 ∧
      mapGet (mergeObservation (mergeObservation m p w1 h1) p w2 h2) p =
        some ⟨max w1 w2, max h1 h2⟩ := by
  have step : ∀ a b : ℤ × ℤ,
      mergeObservation (mergeObservation m p a.1 a.2) p b.1 b.2 =
        mapSet m p ⟨max a.1 b.1, max a.2 b.2⟩ := by
    intro a b
    rw [mergeObservation_of_get_none m p a.1 a.2 hnone]
    rw [mergeObservation_of_get_some _ _ _ _ ⟨a.1, a.2⟩ (mapGet_mapSet_self m p _)]
    rw [mapSet_mapSet]
  constructor
  · rw [step (w1, h1) (w2, h2), step (w2, h2) (w1, h1)]
    rw [max_comm w2 w1, max_comm h2 h1]
  · rw [step (w1, h1) (w2, h2), mapGet_mapSet_self]

theorem c8_witness :
    mapGet ([] : List (Str × ImageDimensions)) "ppt/media/image1.png".data = none ∧
      (mergeObservation (mergeObservation [] "ppt/media/image1.png".data 750 563)
            "ppt/media/image1.png".data 96 96 =
          mergeObservation (mergeObservation [] "ppt/media/image1.png".data 96 96)
            "ppt/media/image1.png".data 750 563 ∧
        mapGet (mergeObservation (mergeObservation [] "ppt/media/image1.png".data 750 563)
              "ppt/media/image1.png".data 96 96) "ppt/media/image1.png".data =
          some ⟨max 750 96, max 563 96⟩) :=
  ⟨rfl, c8_merge_max [] "ppt/media/image1.png".data 750 563 96 96 rfl⟩

/-! ## C9: unsupported file types are rejected -/

/-- C9: when the lower-cased filename extension is neither `pptx` nor `docx`,
`processDocument` fails with the unsupported-file-type error and produces no
output. -/
theorem c9_unsupported_file_type (deps : Deps) (format : ImageFormat) (name : Str)
    (zip : Archive) (quality dpi : ℚ)
    (h1 : fileExtLower name ≠ "pptx".data) (h2 : fileExtLower name ≠ "docx".data) :
    processDocument deps format name zip quality dpi =
      .error ("Unsupported file type: ".data ++ name) := by
  have hp : jsEndsWith ".pptx".data (toLowerStr name) = false := by
    rcases hb : jsEndsWith ".pptx".data (toLowerStr name) with _ | _
    · rfl
    · exact absurd (fileExtLower_of_lower_endsWith
        (show jsEndsWith ('.' :: "pptx".data) (toLowerStr name) = true from hb)
        (by decide)) h1
  have hd : jsEndsWith ".docx".data (toLowerStr name) = false := by
    rcases hb : jsEndsWith ".docx".data (toLowerStr name) with _ | _
    · rfl
    · exact absurd (fileExtLower_of_lower_endsWith
        (show jsEndsWith ('.' :: "docx".data) (toLowerStr name) = true from hb)
        (by decide)) h2
  unfold processDocument
  rw [hp, hd]
  rfl

theorem c9_witness :
    fileExtLower "slides.txt".data ≠ "pptx".data ∧
      fileExtLower "slides.txt".data ≠ "docx".data ∧
      processDocument depsArb ImageFormat.webp "slides.txt".data [] 1 96 =
        .error ("Unsupported file type: ".data ++ "slides.txt".data) :=
  ⟨by decide, by decide,
    c9_unsupported_file_type depsArb ImageFormat.webp "slides.txt".data [] 1 96
      (by decide) (by decide)⟩

/-! ## The replaceAll scan: fuel irrelevance and characterisation -/

theorem raAux_nil (pat rep : Str) (n : Nat) : raAux pat rep n [] = [] := by
  cases n <;> rfl

theorem pat_length_pos {pat : Str} (hp : pat ≠ []) : 0 < pat.length :=
  List.length_pos.mpr hp

theorem raAux_congr (pat rep : Str) :
    ∀ (n m : Nat) (s : Str), s.length ≤ n → s.length ≤ m →
      raAux pat rep n s = raAux pat rep m s := by
  intro n
  induction n with
  | zero =>
    intro m s hs _
    have : s = [] := List.length_eq_zero.mp (Nat.le_zero.mp hs)
    subst this
    rw [raAux_nil, raAux_nil]
  | succ n ih =>
    intro m s hs hm
    cases s with
    | nil => rw [raAux_nil, raAux_nil]
    | cons c rest =>
      cases m with
      | zero => simp at hm
      | succ m' =>
        simp only [raAux]
        by_cases hcond : pat ≠ [] ∧ pat.isPrefixOf (c :: rest) = true
        · rw [if_pos hcond, if_pos hcond]
          have hpl := pat_length_pos hcond.1
          have hd : ((c :: rest).drop pat.length).length ≤ n := by
            rw [List.length_drop]
            simp only [List.length_cons] at hs ⊢
            omega
          have hd' : ((c :: rest).drop pat.length).length ≤ m' := by
            rw [List.length_drop]
            simp only [List.length_cons] at hm ⊢
            omega
          rw [ih _ _ hd hd']
        · rw [if_neg hcond, if_neg hcond]
          have h1 : rest.length ≤ n := by simp only [List.length_cons] at hs; omega
          have h2 : rest.length ≤ m' := by simp only [List.length_cons] at hm; omega
          rw [ih _ _ h1 h2]

theorem replaceAll_nil (pat rep : Str) : replaceAll pat rep [] = [] := rfl

theorem replaceAll_cons_pos (pat rep : Str) (c : Char) (rest : Str)
    (hp : pat ≠ []) (hpre : pat.isPrefixOf (c :: rest) = true) :
    replaceAll pat rep (c :: rest) =
      rep ++ replaceAll pat rep ((c :: rest).drop pat.length) := by
  unfold replaceAll
  simp only [List.length_cons, raAux, if_pos (And.intro hp hpre)]
  congr 1
  apply raAux_congr
  · rw [List.length_drop]
    simp only [List.length_cons]
    have := pat_length_pos hp
    omega
  · exact le_refl _

theorem replaceAll_cons_neg (pat rep : Str) (c : Char) (rest : Str)
    (h : ¬(pat ≠ [] ∧ pat.isPrefixOf (c :: rest) = true)) :
    replaceAll pat rep (c :: rest) = c :: replaceAll pat rep rest := by
  unfold replaceAll
  simp only [List.length_cons, raAux, if_neg h]

theorem spAux_congr (pat : Str) :
    ∀ (n m : Nat) (s : Str), s.length ≤ n → s.length ≤ m →
      spAux pat n s = spAux pat m s := by
  intro n
  induction n with
  | zero =>
    intro m s hs _
    have : s = [] := List.length_eq_zero.mp (Nat.le_zero.mp hs)
    subst this
    cases m <;> rfl
  | succ n ih =>
    intro m s hs hm
    cases s with
    | nil => cases m <;> rfl
    | cons c rest =>
      cases m with
      | zero => simp at hm
      | succ m' =>
        simp only [spAux]
        by_cases hcond : pat ≠ [] ∧ pat.isPrefixOf (c :: rest) = true
        · rw [if_pos hcond, if_pos hcond]
          have hpl := pat_length_pos hcond.1
          have hd : ((c :: rest).drop pat.length).length ≤ n := by
            rw [List.length_drop]
            simp only [List.length_cons] at hs ⊢
            omega
          have hd' : ((c :: rest).drop pat.length).length ≤ m' := by
            rw [List.length_drop]
            simp only [List.length_cons] at hm ⊢
            omega
          rw [ih _ _ hd hd']
        · rw [if_neg hcond, if_neg hcond]
          have h1 : rest.length ≤ n := by simp only [List.length_cons] at hs; omega
          have h2 : rest.length ≤ m' := by simp only [List.length_cons] at hm; omega
          rw [ih _ _ h1 h2]

theorem splitOnPat_nil (pat : Str) : splitOnPat pat [] = [[]] := rfl

theorem splitOnPat_cons_pos (pat : Str) (c : Char) (rest : Str)
    (hp : pat ≠ []) (hpre : pat.isPrefixOf (c :: rest) = true) :
    splitOnPat pat (c :: rest) = [] :: splitOnPat pat ((c :: rest).drop pat.length) := by
  unfold splitOnPat
  simp only [List.length_cons, spAux, if_pos (And.intro hp hpre)]
  congr 1
  apply spAux_congr
  · rw [List.length_drop]
    simp only [List.length_cons]
    have := pat_length_pos hp
    omega
  · exact le_refl _

theorem splitOnPat_cons_neg (pat : Str) (c : Char) (rest : Str) (f : Str) (fs : List Str)
    (h : ¬(pat ≠ [] ∧ pat.isPrefixOf (c :: rest) = true))
    (hsp : splitOnPat pat rest = f :: fs) :
    splitOnPat pat (c :: rest) = (c :: f) :: fs := by
  unfold splitOnPat
  simp only [List.length_cons, spAux, if_neg h]
  have : spAux pat rest.length rest = f :: fs := hsp
  rw [this]

theorem splitOnPat_ne_nil (pat s : Str) : splitOnPat pat s ≠ [] := by
  cases s with
  | nil => simp [splitOnPat_nil]
  | cons c rest =>
    by_cases hcond : pat ≠ [] ∧ pat.isPrefixOf (c :: rest) = true
    · rw [splitOnPat_cons_pos pat c rest hcond.1 hcond.2]
      simp
    · rcases hsp : splitOnPat pat rest with _ | ⟨f, fs⟩
      · unfold splitOnPat at hsp ⊢
        simp only [List.length_cons, spAux, if_neg hcond]
        rw [hsp]
        simp
      · rw [splitOnPat_cons_neg pat c rest f fs hcond hsp]
        simp

theorem joinWith_cons_ex (sep : Str) (f : Str) (fs : List Str) :
    ∃ t, joinWith sep (f :: fs) = f ++ t := by
  cases fs with
  | nil => exact ⟨[], by simp [joinWith]⟩
  | cons g gs => exact ⟨sep ++ joinWith sep (g :: gs), by simp [joinWith]⟩

/-- The fragments of the scan reassemble, with the pattern in between, to the
original string: nothing outside the replaced occurrences is changed. -/
theorem joinWith_splitOnPat (pat : Str) :
    ∀ (n : Nat) (s : Str), s.length ≤ n → joinWith pat (splitOnPat pat s) = s := by
  intro n
  induction n with
  | zero =>
    intro s hs
    have : s = [] := List.length_eq_zero.mp (Nat.le_zero.mp hs)
    subst this
    rfl
  | succ n ih =>
    intro s hs
    cases s with
    | nil => rfl
    | cons c rest =>
      by_cases hcond : pat ≠ [] ∧ pat.isPrefixOf (c :: rest) = true
      · rw [splitOnPat_cons_pos pat c rest hcond.1 hcond.2]
        have hpl := pat_length_pos hcond.1
        have hd : ((c :: rest).drop pat.length).length ≤ n := by
          rw [List.length_drop]
          simp only [List.length_cons] at hs ⊢
          omega
        rcases hsp : splitOnPat pat ((c :: rest).drop pat.length) with _ | ⟨f, fs⟩
        · exact absurd hsp (splitOnPat_ne_nil pat _)
        · have hih := ih _ hd
          rw [hsp] at hih
          show joinWith pat ([] :: f :: fs) = c :: rest
          simp only [joinWith, List.nil_append]
          rw [hih]
          have hpre : pat <+: (c :: rest) := List.isPrefixOf_iff_prefix.mp hcond.2
          obtain ⟨t, ht⟩ := hpre
          rw [← ht, List.drop_left]
      · rcases hsp : splitOnPat pat rest with _ | ⟨f, fs⟩
        · exact absurd hsp (splitOnPat_ne_nil pat _)
        · rw [splitOnPat_cons_neg pat c rest f fs hcond hsp]
          have h1 : rest.length ≤ n := by simp only [List.length_cons] at hs; omega
          have hih := ih _ h1
          rw [hsp] at hih
          cases fs with
          | nil =>
            simp only [joinWith] at hih ⊢
            rw [hih]
          | cons g gs =>
            simp only [joinWith] at hih ⊢
            rw [List.cons_append, List.cons_append]
            rw [hih]

/-- `replaceAll` equals the fragments of the scan joined with the replacement:
every occurrence found by the scan is replaced and the rest is kept verbatim. -/
theorem replaceAll_eq_joinWith (pat rep : Str) :
    ∀ (n : Nat) (s : Str), s.length ≤ n →
      replaceAll pat rep s = joinWith rep (splitOnPat pat s) := by
  intro n
  induction n with
  | zero =>
    intro s hs
    have : s = [] := List.length_eq_zero.mp (Nat.le_zero.mp hs)
    subst this
    rfl
  | succ n ih =>
    intro s hs
    cases s with
    | nil => rfl
    | cons c rest =>
      by_cases hcond : pat ≠ [] ∧ pat.isPrefixOf (c :: rest) = true
      · rw [splitOnPat_cons_pos pat c rest hcond.1 hcond.2,
          replaceAll_cons_pos pat rep c rest hcond.1 hcond.2]
        have hpl := pat_length_pos hcond.1
        have hd : ((c :: rest).drop pat.length).length ≤ n := by
          rw [List.length_drop]
          simp only [List.length_cons] at hs ⊢
          omega
        rcases hsp : splitOnPat pat ((c :: rest).drop pat.length) with _ | ⟨f, fs⟩
        · exact absurd hsp (splitOnPat_ne_nil pat _)
        · have hih := ih _ hd
          rw [hsp] at hih
          rw [hih]
          simp [joinWith]
      · rcases hsp : splitOnPat pat rest with _ | ⟨f, fs⟩
        · exact absurd hsp (splitOnPat_ne_nil pat _)
        · rw [splitOnPat_cons_neg pat c rest f fs hcond hsp,
            replaceAll_cons_neg pat rep c rest hcond]
          have h1 : rest.length ≤ n := by simp only [List.length_cons] at hs; omega
          have hih := ih _ h1
          rw [hsp] at hih
          cases fs with
          | nil =>
            simp only [joinWith] at hih ⊢
            rw [hih]
          | cons g gs =>
            simp only [joinWith] at hih ⊢
            rw [List.cons_append, List.cons_append]
            rw [hih]

/-- No fragment produced by the scan contains the pattern: the scan replaces
every occurrence. -/
theorem splitOnPat_no_occurrence (pat : Str) (hp : pat ≠ []) :
    ∀ (n : Nat) (s : Str), s.length ≤ n →
      ∀ f ∈ splitOnPat pat s, occurs pat f = false := by
  intro n
  induction n with
  | zero =>
    intro s hs f hf
    have : s = [] := List.length_eq_zero.mp (Nat.le_zero.mp hs)
    subst this
    rw [splitOnPat_nil] at hf
    simp at hf
    subst hf
    rw [occurs_nil]
    cases pat with
    | nil => exact absurd rfl hp
    | cons _ _ => rfl
  | succ n ih =>
    intro s hs f hf
    cases s with
    | nil =>
      rw [splitOnPat_nil] at hf
      simp at hf
      subst hf
      rw [occurs_nil]
      cases pat with
      | nil => exact absurd rfl hp
      | cons _ _ => rfl
    | cons c rest =>
      by_cases hcond : pat ≠ [] ∧ pat.isPrefixOf (c :: rest) = true
      · rw [splitOnPat_cons_pos pat c rest hcond.1 hcond.2] at hf
        have hpl := pat_length_pos hcond.1
        have hd : ((c :: rest).drop pat.length).length ≤ n := by
          rw [List.length_drop]
          simp only [List.length_cons] at hs ⊢
          omega
        rcases List.mem_cons.mp hf with h | h
        · subst h
          rw [occurs_nil]
          cases pat with
          | nil => exact absurd rfl hp
          | cons _ _ => rfl
        · exact ih _ hd f h
      · rcases hsp : splitOnPat pat rest with _ | ⟨g, gs⟩
        · exact absurd hsp (splitOnPat_ne_nil pat _)
        · rw [splitOnPat_cons_neg pat c rest g gs hcond hsp] at hf
          have h1 : rest.length ≤ n := by simp only [List.length_cons] at hs; omega
          have hnopre : pat.isPrefixOf (c :: rest) = false := by
            rcases hb : pat.isPrefixOf (c :: rest) with _ | _
            · rfl
            · exact absurd (And.intro hp hb) hcond
          rcases List.mem_cons.mp hf with h | h
          · subst h
            rw [occurs_cons]
            have hocc : occurs pat g = false := ih _ h1 g (by rw [hsp]; simp)
            have hpre : pat.isPrefixOf (c :: g) = false := by
              rcases hb : pat.isPrefixOf (c :: g) with _ | _
              · rfl
              · exfalso
                have hjw := joinWith_splitOnPat pat rest.length rest (le_refl _)
                rw [hsp] at hjw
                obtain ⟨t, ht⟩ := joinWith_cons_ex pat g gs
                rw [ht] at hjw
                have hgp : (c :: g) <+: (c :: rest) := by
                  rw [List.cons_prefix_cons]
                  exact ⟨rfl, hjw ▸ List.prefix_append g t⟩
                have : pat <+: (c :: rest) :=
                  (List.isPrefixOf_iff_prefix.mp hb).trans hgp
                rw [← List.isPrefixOf_iff_prefix] at this
                rw [this] at hnopre
                exact Bool.true_eq_false.mp hnopre
            rw [hocc, hpre]
            rfl
          · exact ih _ h1 f (by rw [hsp]; simp [h])

/-- A string without an occurrence of the pattern is left unchanged. -/
theorem replaceAll_no_occurrence (pat rep s : Str) (h : occurs pat s = false) :
    replaceAll pat rep s = s := by
  induction s with
  | nil => rfl
  | cons c rest ih =>
    rw [occurs_cons] at h
    have h1 : pat.isPrefixOf (c :: rest) = false := by
      rcases hb : pat.isPrefixOf (c :: rest) with _ | _
      · rfl
      · rw [hb] at h; simp at h
    have h2 : occurs pat rest = false := by
      rcases hb : occurs pat rest with _ | _
      · rfl
      · rw [hb] at h; simp at h
    rw [replaceAll_cons_neg pat rep c rest (fun hc => by rw [hc.2] at h1; simp at h1)]
    rw [ih h2]

/-- A string without an occurrence of the pattern is one single fragment. -/
theorem splitOnPat_no_occurrence_eq (pat s : Str) (h : occurs pat s = false) :
    splitOnPat pat s = [s] := by
  induction s with
  | nil => rfl
  | cons c rest ih =>
    rw [occurs_cons] at h
    have h1 : pat.isPrefixOf (c :: rest) = false := by
      rcases hb : pat.isPrefixOf (c :: rest) with _ | _
      · rfl
      · rw [hb] at h; simp at h
    have h2 : occurs pat rest = false := by
      rcases hb : occurs pat rest with _ | _
      · rfl
      · rw [hb] at h; simp at h
    rw [splitOnPat_cons_neg pat c rest rest [] (fun hc => by rw [hc.2] at h1; simp at h1)
      (ih h2)]

/-! ## Archive lemmas -/

theorem lookupEntry_writeEntry_self (z : Archive) (p : Str) (b : Blob) :
    lookupEntry (writeEntry z p b) p = some b := by
  induction z with
  | nil => simp [writeEntry, lookupEntry]
  | cons e rest ih =>
    simp only [writeEntry]
    by_cases he : e.1 = p
    · rw [if_pos he]
      simp [lookupEntry]
    · rw [if_neg he]
      simp only [lookupEntry, if_neg he]
      exact ih

theorem lookupEntry_writeEntry_ne (z : Archive) (p : Str) (b : Blob) (q : Str)
    (h : q ≠ p) : lookupEntry (writeEntry z p b) q = lookupEntry z q := by
  induction z with
  | nil =>
    simp only [writeEntry, lookupEntry]
    rw [if_neg (fun hc : p = q => h hc.symm)]
  | cons e rest ih =>
    simp only [writeEntry]
    by_cases he : e.1 = p
    · rw [if_pos he]
      have h1 : ¬(p = q) := fun hc => h hc.symm
      have h2 : ¬(e.1 = q) := fun hc => h1 (he.symm.trans hc)
      simp only [lookupEntry, if_neg h1, if_neg h2]
    · rw [if_neg he]
      simp only [lookupEntry]
      by_cases he2 : e.1 = q
      · rw [if_pos he2, if_pos he2]
      · rw [if_neg he2, if_neg he2]
        exact ih

theorem lookupEntry_removeEntry_ne (z : Archive) (p q : Str) (h : q ≠ p) :
    lookupEntry (removeEntry z p) q = lookupEntry z q := by
  induction z with
  | nil => rfl
  | cons e rest ih =>
    simp only [removeEntry, List.filter]
    by_cases he : e.1 = p
    · have : (decide (e.1 ≠ p)) = false := by simp [he]
      rw [this]
      have h2 : ¬(e.1 = q) := fun hc => h (hc.symm.trans he)
      simp only [lookupEntry, if_neg h2]
      exact ih
    · have : (decide (e.1 ≠ p)) = true := by simp [he]
      rw [this]
      simp only [lookupEntry]
      by_cases he2 : e.1 = q
      · rw [if_pos he2, if_pos he2]
      · rw [if_neg he2, if_neg he2]
        exact ih

theorem lookupEntry_of_mem_nodup (z : Archive) (p : Str) (b : Blob)
    (hnd : pathsNodup z) (hmem : (p, b) ∈ z) : lookupEntry z p = some b := by
  induction z with
  | nil => simp at hmem
  | cons e rest ih =>
    unfold pathsNodup at hnd
    simp only [List.map_cons, List.nodup_cons] at hnd
    rcases List.mem_cons.mp hmem with h | h
    · subst h
      simp [lookupEntry]
    · have hne : e.1 ≠ p := by
        intro hc
        exact hnd.1 (hc ▸ List.mem_map_of_mem Prod.fst h)
      simp only [lookupEntry, if_neg hne]
      exact ih hnd.2 h

theorem mem_of_lookupEntry_some {z : Archive} {p : Str} {b : Blob}
    (h : lookupEntry z p = some b) : (p, b) ∈ z := by
  induction z with
  | nil => simp [lookupEntry] at h
  | cons e rest ih =>
    simp only [lookupEntry] at h
    by_cases he : e.1 = p
    · rw [if_pos he] at h
      have hb : e = (p, b) := by
        cases e
        simp only at he
        simp only [Option.some.injEq] at h
        simp [he, h]
      rw [← hb]
      exact List.mem_cons_self e rest
    · rw [if_neg he] at h
      exact List.mem_cons_of_mem _ (ih h)

theorem mem_writeEntry {z : Archive} {p : Str} {b : Blob} {x : Str × Blob}
    (h : x ∈ writeEntry z p b) : x ∈ z ∨ x = (p, b) := by
  induction z with
  | nil => simp [writeEntry] at h; right; exact h
  | cons e rest ih =>
    simp only [writeEntry] at h
    by_cases he : e.1 = p
    · rw [if_pos he] at h
      rcases List.mem_cons.mp h with h1 | h1
      · right; exact h1
      · left; exact List.mem_cons_of_mem _ h1
    · rw [if_neg he] at h
      rcases List.mem_cons.mp h with h1 | h1
      · left; exact h1 ▸ List.mem_cons_self e rest
      · rcases ih h1 with h2 | h2
        · left; exact List.mem_cons_of_mem _ h2
        · right; exact h2

theorem mem_removeEntry {z : Archive} {p : Str} {x : Str × Blob}
    (h : x ∈ removeEntry z p) : x ∈ z :=
  List.mem_of_mem_filter h

/-! ## updateRelationships: per-entry characterisation -/

theorem relsStep_lookup_ne (frn : List (Str × Str)) (z : Archive) (rp q : Str)
    (h : q ≠ rp) : lookupEntry (relsStep frn z rp) q = lookupEntry z q := by
  unfold relsStep
  rcases lookupEntry z rp with _ | relsFile
  · rfl
  · simp only
    split
    · exact lookupEntry_writeEntry_ne z rp _ q h
    · rfl

theorem relsStep_lookup_self (frn : List (Str × Str)) (z : Archive) (rp : Str) (b : Blob)
    (h : lookupEntry z rp = some b) :
    lookupEntry (relsStep frn z rp) rp = some (relsTransform frn b) := by
  unfold relsStep relsTransform
  rw [h]
  simp only
  split
  · exact lookupEntry_writeEntry_self _ _ _
  · exact h

theorem foldl_relsStep_not_mem (frn : List (Str × Str)) :
    ∀ (l : List Str) (z : Archive) (p : Str), p ∉ l →
      lookupEntry (l.foldl (relsStep frn) z) p = lookupEntry z p := by
  intro l
  induction l with
  | nil => intro z p _; rfl
  | cons q t ih =>
    intro z p hp
    simp only [List.mem_cons, not_or] at hp
    simp only [List.foldl_cons]
    rw [ih _ _ hp.2]
    exact relsStep_lookup_ne frn z q p hp.1

theorem foldl_relsStep_mem (frn : List (Str × Str)) :
    ∀ (l : List Str) (z : Archive) (p : Str) (b : Blob), l.Nodup → p ∈ l →
      lookupEntry z p = some b →
      lookupEntry (l.foldl (relsStep frn) z) p = some (relsTransform frn b) := by
  intro l
  induction l with
  | nil => intro z p b _ hp; simp at hp
  | cons q t ih =>
    intro z p b hnd hp hl
    simp only [List.nodup_cons] at hnd
    simp only [List.foldl_cons]
    rcases List.mem_cons.mp hp with h | h
    · subst h
      rw [foldl_relsStep_not_mem frn t _ p hnd.1]
      exact relsStep_lookup_self frn z p b hl
    · refine ih _ _ _ hnd.2 h ?_
      rw [relsStep_lookup_ne frn z q p (fun hc => hnd.1 (hc ▸ h))]
      exact hl

theorem applyRenamesToXml_single (pat rep x : Str) :
    applyRenamesToXml [(pat, rep)] x =
      if occurs pat x then (replaceAll pat rep x, true) else (x, false) := rfl

theorem relsTransform_single (pat rep : Str) (b : Blob) :
    (relsTransform [(pat, rep)] b).data =
      if occurs pat b.data then replaceAll pat rep b.data else b.data := by
  by_cases hocc : occurs pat b.data
  · simp only [relsTransform, applyRenamesToXml_single, if_pos hocc]
    simp
  · simp only [relsTransform, applyRenamesToXml_single, if_neg hocc]
    simp

/-! ## C2: rename propagation through .rels parts -/

/-- C2: with the single rename `ppt/media/image1.png → ppt/media/image1.webp`,
every `.rels` entry's text becomes its scan fragments joined with
`image1.webp`; the fragments joined with `image1.png` give back the original
text (so nothing outside the occurrences is altered) and no fragment contains
`image1.png` (so every occurrence is replaced). In particular a text
containing `image10.png` but not `image1.png` is a single fragment and stays
unchanged, as the closing concrete example shows. -/
theorem c2_rename_propagation (z : Archive) (p : Str) (b : Blob)
    (hnd : pathsNodup z) (hmem : (p, b) ∈ z) (hrels : jsEndsWith ".rels".data p = true) :
    (lookupEntry (updateRelationships z
          [("ppt/media/image1.png".data, "ppt/media/image1.webp".data)]) p).map Blob.data =
        some (joinWith "image1.webp".data (splitOnPat "image1.png".data b.data)) ∧
      joinWith "image1.png".data (splitOnPat "image1.png".data b.data) = b.data ∧
      (∀ f ∈ splitOnPat "image1.png".data b.data, occurs "image1.png".data f = false) ∧
      replaceAll "image1.png".data "image1.webp".data
          "<R Target=\"../media/image1.png\"/><R Target=\"../media/image10.png\"/>".data =
        "<R Target=\"../media/image1.webp\"/><R Target=\"../media/image10.png\"/>".data := by
  refine ⟨?_, joinWith_splitOnPat _ _ _ (le_refl _),
    splitOnPat_no_occurrence _ (by decide) _ _ (le_refl _), by decide⟩
  unfold updateRelationships
  have hfrn : ([("ppt/media/image1.png".data, "ppt/media/image1.webp".data)]).map
      (fun r => (lastPathSeg r.1, lastPathSeg r.2)) =
      [("image1.png".data, "image1.webp".data)] := by decide
  rw [hfrn]
  have hndl : ((z.map Prod.fst).filter (fun q => jsEndsWith ".rels".data q)).Nodup :=
    List.Nodup.filter _ hnd
  have hpl : p ∈ (z.map Prod.fst).filter (fun q => jsEndsWith ".rels".data q) := by
    rw [List.mem_filter]
    exact ⟨List.mem_map_of_mem Prod.fst hmem, hrels⟩
  rw [foldl_relsStep_mem _ _ _ _ _ hndl hpl (lookupEntry_of_mem_nodup z p b hnd hmem)]
  have hmap : (some (relsTransform [("image1.png".data, "image1.webp".data)] b)).map
      Blob.data = some ((relsTransform [("image1.png".data, "image1.webp".data)] b).data) :=
    rfl
  rw [hmap, relsTransform_single]
  by_cases hocc : occurs "image1.png".data b.data
  · rw [if_pos hocc]
    rw [replaceAll_eq_joinWith _ _ _ _ (le_refl _)]
  · rw [if_neg hocc]
    have hocc' : occurs "image1.png".data b.data = false := by
      rcases hb : occurs "image1.png".data b.data with _ | _
      · rfl
      · exact absurd hb hocc
    rw [splitOnPat_no_occurrence_eq _ _ hocc']
    rfl

theorem c2_witness :
    pathsNodup relsDemoZip ∧ (relsDemoPath, relsDemoBlob) ∈ relsDemoZip ∧
      jsEndsWith ".rels".data relsDemoPath = true ∧
      ((lookupEntry (updateRelationships relsDemoZip
            [("ppt/media/image1.png".data, "ppt/media/image1.webp".data)])
            relsDemoPath).map Blob.data =
          some (joinWith "image1.webp".data
            (splitOnPat "image1.png".data relsDemoBlob.data)) ∧
        joinWith "image1.png".data (splitOnPat "image1.png".data relsDemoBlob.data) =
          relsDemoBlob.data ∧
        (∀ f ∈ splitOnPat "image1.png".data relsDemoBlob.data,
          occurs "image1.png".data f = false) ∧
        replaceAll "image1.png".data "image1.webp".data
            "<R Target=\"../media/image1.png\"/><R Target=\"../media/image10.png\"/>".data =
          "<R Target=\"../media/image1.webp\"/><R Target=\"../media/image10.png\"/>".data) :=
  ⟨by unfold pathsNodup relsDemoZip; decide, by decide, by decide,
    c2_rename_propagation relsDemoZip relsDemoPath relsDemoBlob
      (by unfold pathsNodup relsDemoZip; decide) (by decide) (by decide)⟩

/-! ## Content-types registrar lemmas -/

theorem stripPrefixFold_refl_append : ∀ (p s : Str), stripPrefixFold p (p ++ s) = some s := by
  intro p
  induction p with
  | nil => intro s; rfl
  | cons c cs ih =>
    intro s
    simp only [List.cons_append, stripPrefixFold, if_pos rfl]
    exact ih s

theorem dropWhile_append_of_eq_cons {p : Char → Bool} :
    ∀ {l₁ : Str} {x : Char} {xs l₂ : Str}, List.dropWhile p l₁ = x :: xs →
      List.dropWhile p (l₁ ++ l₂) = x :: (xs ++ l₂) := by
  intro l₁
  induction l₁ with
  | nil => intro x xs l₂ h; simp [List.dropWhile] at h
  | cons c t ih =>
    intro x xs l₂ h
    rw [List.dropWhile_cons] at h
    rw [List.cons_append, List.dropWhile_cons]
    by_cases hc : p c
    · rw [if_pos hc] at h
      rw [if_pos hc]
      exact ih h
    · rw [if_neg hc] at h
      rw [if_neg hc]
      cases h
      simp

theorem takeWhile_append_all {p : Char → Bool} :
    ∀ {l₁ : Str} (l₂ : Str), (∀ c ∈ l₁, p c = true) →
      List.takeWhile p (l₁ ++ l₂) = l₁ ++ List.takeWhile p l₂ := by
  intro l₁
  induction l₁ with
  | nil => intro l₂ _; rfl
  | cons c t ih =>
    intro l₂ hall
    rw [List.cons_append, List.takeWhile_cons, if_pos (hall c (by simp))]
    rw [ih l₂ (fun d hd => hall d (by simp [hd]))]
    rfl

theorem dropWhile_append_all {p : Char → Bool} :
    ∀ {l₁ : Str} (l₂ : Str), (∀ c ∈ l₁, p c = true) →
      List.dropWhile p (l₁ ++ l₂) = List.dropWhile p l₂ := by
  intro l₁
  induction l₁ with
  | nil => intro l₂ _; rfl
  | cons c t ih =>
    intro l₂ hall
    rw [List.cons_append, List.dropWhile_cons, if_pos (hall c (by simp))]
    exact ih l₂ (fun d hd => hall d (by simp [hd]))

theorem exists_dropWhile_gt : ∀ (u : Str), '>' ∈ u →
    ∃ b, List.dropWhile (fun x => x ≠ '>') u = '>' :: b := by
  intro u
  induction u with
  | nil => intro h; simp at h
  | cons c t ih =>
    intro h
    rw [List.dropWhile_cons]
    by_cases hc : c = '>'
    · subst hc
      rw [if_neg (by simp)]
      exact ⟨t, rfl⟩
    · rw [if_pos (by simp [hc])]
      have h1 : '>' ∈ t := by
        rcases List.mem_cons.mp h with h2 | h2
        · exact absurd h2.symm hc
        · exact h2
      exact ih h1

theorem hasTypesTag_nil : hasTypesTag [] = false := rfl

theorem hasTypesTag_cons (c : Char) (rest : Str) :
    hasTypesTag (c :: rest) =
      (("<Types".data.isPrefixOf (c :: rest) && (c :: rest).contains '>') || hasTypesTag rest) := by
  unfold hasTypesTag
  rw [List.tails_cons]
  simp

theorem insertAfterRoot_of_no_tag (entry : Str) :
    ∀ (xml : Str), hasTypesTag xml = false → insertAfterRoot entry xml = xml := by
  intro xml
  induction xml with
  | nil => intro _; rfl
  | cons c rest ih =>
    intro h
    rw [hasTypesTag_cons] at h
    simp only [Bool.or_eq_false_iff] at h
    unfold insertAfterRoot
    rw [if_neg (by rw [h.1]; simp)]
    rw [ih h.2]

theorem insertAfterRoot_spec (entry : Str) :
    ∀ (xml : Str), hasTypesTag xml = true →
      ∃ pre mid rest, xml = pre ++ "<Types".data ++ mid ++ '>' :: rest ∧
        (∀ c ∈ mid, c ≠ '>') ∧
        insertAfterRoot entry xml =
          pre ++ "<Types".data ++ mid ++ '>' :: (entry ++ rest) := by
  intro xml
  induction xml with
  | nil => intro h; rw [hasTypesTag_nil] at h; exact absurd h (by simp)
  | cons c rest' ih =>
    intro h
    unfold insertAfterRoot
    by_cases hcond : ("<Types".data.isPrefixOf (c :: rest') && (c :: rest').contains '>') = true
    · rw [if_pos hcond]
      simp only [Bool.and_eq_true] at hcond
      have hpre : "<Types".data <+: (c :: rest') := List.isPrefixOf_iff_prefix.mp hcond.1
      obtain ⟨u, hu⟩ := hpre
      have hgt : '>' ∈ u := by
        have hmem : '>' ∈ (c :: rest') := by
          have := hcond.2
          simpa [List.contains] using this
        rw [← hu] at hmem
        rcases List.mem_append.mp hmem with h1 | h1
        · exact absurd h1 (by decide)
        · exact h1
      obtain ⟨b, hb⟩ := exists_dropWhile_gt u hgt
      have hallty : ∀ d ∈ "<Types".data, (fun x => decide (x ≠ '>')) d = true := by decide
      refine ⟨[], List.takeWhile (fun x => x ≠ '>') u, b, ?_, ?_, ?_⟩
      · rw [List.nil_append, ← hu]
        have := List.takeWhile_append_dropWhile (p := fun x => decide (x ≠ '>')) (l := u)
        rw [hb] at this
        conv_lhs => rw [← this]
        simp
      · intro d hd
        have := List.mem_takeWhile_imp hd
        simpa using this
      · rw [← hu]
        rw [takeWhile_append_all _ hallty, dropWhile_append_all _ hallty, hb]
        simp
    · rw [if_neg hcond]
      rw [hasTypesTag_cons] at h
      rcases Bool.or_eq_true_iff.mp h with h1 | h1
      · exact absurd h1 hcond
      · obtain ⟨pre, mid, rest, hx, hmid, hres⟩ := ih h1
        exact ⟨c :: pre, mid, rest, by rw [hx]; simp, hmid, by rw [hres]; simp⟩

theorem writeEntry_writeEntry (z : Archive) (p : Str) (b b' : Blob) :
    writeEntry (writeEntry z p b) p b' = writeEntry z p b' := by
  induction z with
  | nil => simp [writeEntry]
  | cons e rest ih =>
    simp only [writeEntry]
    by_cases he : e.1 = p
    · rw [if_pos he]
      simp [writeEntry, he]
    · rw [if_neg he]
      simp only [writeEntry, if_neg he]
      rw [ih]

theorem extDeclTest_iff (ext xml : Str) :
    extDeclTest ext xml = true ↔ ∃ t, t <:+ xml ∧ matchExtAt ext t = true := by
  unfold extDeclTest
  rw [List.any_eq_true]
  constructor
  · rintro ⟨t, ht, hm⟩
    exact ⟨t, (List.mem_tails t xml).mp ht, hm⟩
  · rintro ⟨t, ht, hm⟩
    exact ⟨t, (List.mem_tails t xml).mpr ht, hm⟩

theorem extDeclTest_of_countPos (ext xml : Str) (h : 0 < countExtDecl ext xml) :
    extDeclTest ext xml = true := by
  unfold countExtDecl at h
  rw [List.countP_pos_iff] at h
  obtain ⟨t, ht, hm⟩ := h
  rw [extDeclTest_iff]
  exact ⟨t, (List.mem_tails t xml).mp ht, hm⟩

theorem matchExtAt_entry (ext u : Str) :
    matchExtAt ext ("Extension=\"".data ++ (ext ++ '"' :: u)) = true := by
  unfold matchExtAt
  have h1 : "Extension=\"".data ++ (ext ++ '"' :: u) =
      "Extension".data ++ ('=' :: '"' :: (ext ++ '"' :: u)) := by simp
  rw [h1, stripPrefixFold_refl_append]
  show (match List.dropWhile isWsChar ('=' :: '"' :: (ext ++ '"' :: u)) with
    | '=' :: r2 =>
      match List.dropWhile isWsChar r2 with
      | '"' :: r3 =>
        match stripPrefixFold ext r3 with
        | some ('"' :: _) => true
        | _ => false
      | _ => false
    | _ => false) = true
  rw [List.dropWhile_cons, if_neg (by decide)]
  show (match List.dropWhile isWsChar ('"' :: (ext ++ '"' :: u)) with
    | '"' :: r3 =>
      match stripPrefixFold ext r3 with
      | some ('"' :: _) => true
      | _ => false
    | _ => false) = true
  rw [List.dropWhile_cons, if_neg (by decide)]
  show (match stripPrefixFold ext (ext ++ '"' :: u) with
    | some ('"' :: _) => true
    | _ => false) = true
  rw [stripPrefixFold_refl_append]
  rfl

/-- The inserted `<Default .../>` declaration makes the presence test succeed
on any surrounding text. -/
theorem extDeclTest_insert (ext mime : Str) (pre rest : Str) :
    extDeclTest ext (pre ++ (defaultEntryFor ext mime ++ rest)) = true := by
  rw [extDeclTest_iff]
  refine ⟨"Extension=\"".data ++ (ext ++ '"' :: (" ContentType=\"".data ++ mime
    ++ "\"/>".data ++ rest)), ?_, ?_⟩
  · refine ⟨pre ++ "<Default ".data, ?_⟩
    unfold defaultEntryFor
    have h2 : "<Default Extension=\"".data =
        "<Default ".data ++ "Extension=\"".data := by decide
    rw [h2]
    have h3 : ("\" ContentType=\"".data : Str) =
        '"' :: " ContentType=\"".data := by decide
    rw [h3]
    simp
  · exact matchExtAt_entry ext _

theorem updateContentTypes_eq (z : Archive) (rx : List Str) (fmt : ImageFormat) (b : Blob)
    (hrx : rx ≠ []) (hct : lookupEntry z ctPath = some b) :
    updateContentTypes z rx fmt =
      if extDeclTest (contentTypesFor fmt).1 b.data then z
      else writeEntry z ctPath
        ⟨insertAfterRoot (defaultEntryFor (contentTypesFor fmt).1 (contentTypesFor fmt).2)
          b.data, []⟩ := by
  unfold updateContentTypes
  rw [if_neg hrx]
  split
  · next h => rw [h] at hct; cases hct
  · next ctFile h =>
    rw [h] at hct
    injection hct with hct
    subst hct
    rfl

/-! ## C4: the content-type registrar is idempotent -/

/-- C4: if a (case-insensitive) `Default` declaration for the format's
extension is already present the registrar leaves the archive unchanged;
otherwise it inserts exactly one new declaration immediately after the root
`<Types ...>` opening tag; and applying the registrar twice equals applying it
once, so the extension ends up declared once, not twice. -/
theorem c4_registrar_idempotent (z : Archive) (rx : List Str) (fmt : ImageFormat)
    (b : Blob) (hrx : rx ≠ []) (hct : lookupEntry z ctPath = some b) :
    (extDeclTest (contentTypesFor fmt).1 b.data = true → updateContentTypes z rx fmt = z) ∧
      (extDeclTest (contentTypesFor fmt).1 b.data = false → hasTypesTag b.data = true →
        ∃ pre mid rest, b.data = pre ++ "<Types".data ++ mid ++ '>' :: rest ∧
          (∀ c ∈ mid, c ≠ '>') ∧
          lookupEntry (updateContentTypes z rx fmt) ctPath = some
            ⟨pre ++ "<Types".data ++ mid ++ '>' ::
              (defaultEntryFor (contentTypesFor fmt).1 (contentTypesFor fmt).2 ++ rest),
              []⟩) ∧
      updateContentTypes (updateContentTypes z rx fmt) rx fmt =
        updateContentTypes z rx fmt := by
  refine ⟨?_, ?_, ?_⟩
  · intro htest
    rw [updateContentTypes_eq z rx fmt b hrx hct, if_pos htest]
  · intro htest htag
    obtain ⟨pre, mid, rest, hx, hmid, hres⟩ :=
      insertAfterRoot_spec
        (defaultEntryFor (contentTypesFor fmt).1 (contentTypesFor fmt).2) b.data htag
    refine ⟨pre, mid, rest, hx, hmid, ?_⟩
    rw [updateContentTypes_eq z rx fmt b hrx hct, if_neg (by rw [htest]; simp),
      lookupEntry_writeEntry_self, hres]
  · by_cases htest : extDeclTest (contentTypesFor fmt).1 b.data = true
    · rw [updateContentTypes_eq z rx fmt b hrx hct, if_pos htest]
      rw [updateContentTypes_eq z rx fmt b hrx hct, if_pos htest]
    · have htest' : extDeclTest (contentTypesFor fmt).1 b.data = false := by
        rcases hb : extDeclTest (contentTypesFor fmt).1 b.data with _ | _
        · rfl
        · exact absurd hb htest
      rw [updateContentTypes_eq z rx fmt b hrx hct, if_neg (by rw [htest']; simp)]
      by_cases htag : hasTypesTag b.data = true
      · obtain ⟨pre, mid, rest, hx, hmid, hres⟩ :=
          insertAfterRoot_spec
            (defaultEntryFor (contentTypesFor fmt).1 (contentTypesFor fmt).2) b.data htag
        rw [updateContentTypes_eq _ rx fmt
          ⟨insertAfterRoot
            (defaultEntryFor (contentTypesFor fmt).1 (contentTypesFor fmt).2) b.data, []⟩
          hrx (lookupEntry_writeEntry_self z ctPath _)]
        rw [if_pos ?side]
        case side =>
          show extDeclTest (contentTypesFor fmt).1
            (insertAfterRoot
              (defaultEntryFor (contentTypesFor fmt).1 (contentTypesFor fmt).2) b.data) = true
          rw [hres]
          have hassoc : pre ++ "<Types".data ++ mid ++ '>' ::
              (defaultEntryFor (contentTypesFor fmt).1 (contentTypesFor fmt).2 ++ rest) =
              (pre ++ "<Types".data ++ mid ++ ['>']) ++
                (defaultEntryFor (contentTypesFor fmt).1 (contentTypesFor fmt).2 ++ rest) := by
            simp
          rw [hassoc]
          exact extDeclTest_insert _ _ _ _
      · have htag' : hasTypesTag b.data = false := by
          rcases hb : hasTypesTag b.data with _ | _
          · rfl
          · exact absurd hb htag
        rw [insertAfterRoot_of_no_tag _ _ htag']
        rw [updateContentTypes_eq _ rx fmt ⟨b.data, []⟩ hrx
          (lookupEntry_writeEntry_self z ctPath _)]
        rw [if_neg (by show ¬ (extDeclTest (contentTypesFor fmt).1 b.data = true)
                       rw [htest']; simp)]
        rw [insertAfterRoot_of_no_tag _ _ htag']
        exact writeEntry_writeEntry z ctPath _ _

theorem c4_witness :
    (["png".data] : List Str) ≠ [] ∧ lookupEntry ctDemoZip ctPath = some ctDemoBlob ∧
      ((extDeclTest (contentTypesFor ImageFormat.webp).1 ctDemoBlob.data = true →
          updateContentTypes ctDemoZip ["png".data] ImageFormat.webp = ctDemoZip) ∧
        (extDeclTest (contentTypesFor ImageFormat.webp).1 ctDemoBlob.data = false →
          hasTypesTag ctDemoBlob.data = true →
          ∃ pre mid rest, ctDemoBlob.data = pre ++ "<Types".data ++ mid ++ '>' :: rest ∧
            (∀ c ∈ mid, c ≠ '>') ∧
            lookupEntry (updateContentTypes ctDemoZip ["png".data] ImageFormat.webp) ctPath =
              some ⟨pre ++ "<Types".data ++ mid ++ '>' ::
                (defaultEntryFor (contentTypesFor ImageFormat.webp).1
                  (contentTypesFor ImageFormat.webp).2 ++ rest), []⟩) ∧
        updateContentTypes (updateContentTypes ctDemoZip ["png".data] ImageFormat.webp)
            ["png".data] ImageFormat.webp =
          updateContentTypes ctDemoZip ["png".data] ImageFormat.webp) :=
  ⟨by decide, by decide,
    c4_registrar_idempotent ctDemoZip ["png".data] ImageFormat.webp ctDemoBlob
      (by decide) (by decide)⟩

/-! ## compressImage: adoption is guarded by strict size decrease -/

theorem compressImage_adopted (codec : Codec) (b : Blob) (tw th : ℤ) (q : ℚ) (cb : Blob)
    (h : compressImage codec b tw th q = some (cb, true)) : cb.size < b.size := by
  unfold compressImage at h
  cases hload : codec.load b with
  | none => rw [hload] at h; simp at h
  | some nat =>
    rw [hload] at h
    simp only [Option.bind_eq_bind, Option.some_bind] at h
    cases hweb : codec.encode b (min tw nat.1) (min th nat.2) "image/webp".data q with
    | none => rw [hweb] at h; simp at h
    | some webpBlob =>
      rw [hweb] at h
      simp only [Option.some_bind] at h
      by_cases hw : webpBlob.size < b.size
      · rw [if_pos hw] at h
        simp only [pure, Option.some.injEq, Prod.mk.injEq] at h
        rw [← h.1]
        exact hw
      · rw [if_neg hw] at h
        by_cases hr : min tw nat.1 < nat.1 ∨ min th nat.2 < nat.2
        · rw [if_pos hr] at h
          cases hjpeg : codec.encode b (min tw nat.1) (min th nat.2) "image/jpeg".data q with
          | none => rw [hjpeg] at h; simp at h
          | some jpegBlob =>
            rw [hjpeg] at h
            simp only [Option.some_bind] at h
            by_cases hj : jpegBlob.size < b.size
            · rw [if_pos hj] at h
              simp only [pure, Option.some.injEq, Prod.mk.injEq] at h
              rw [← h.1]
              exact hj
            · rw [if_neg hj] at h
              simp [pure] at h
        · rw [if_neg hr] at h
          simp [pure] at h

theorem compressImage_not_adopted (codec : Codec) (b : Blob) (tw th : ℤ) (q : ℚ) (cb : Blob)
    (h : compressImage codec b tw th q = some (cb, false)) : cb = b := by
  unfold compressImage at h
  cases hload : codec.load b with
  | none => rw [hload] at h; simp at h
  | some nat =>
    rw [hload] at h
    simp only [Option.bind_eq_bind, Option.some_bind] at h
    cases hweb : codec.encode b (min tw nat.1) (min th nat.2) "image/webp".data q with
    | none => rw [hweb] at h; simp at h
    | some webpBlob =>
      rw [hweb] at h
      simp only [Option.some_bind] at h
      by_cases hw : webpBlob.size < b.size
      · rw [if_pos hw] at h
        simp [pure] at h
      · rw [if_neg hw] at h
        by_cases hr : min tw nat.1 < nat.1 ∨ min th nat.2 < nat.2
        · rw [if_pos hr] at h
          cases hjpeg : codec.encode b (min tw nat.1) (min th nat.2) "image/jpeg".data q with
          | none => rw [hjpeg] at h; simp at h
          | some jpegBlob =>
            rw [hjpeg] at h
            simp only [Option.some_bind] at h
            by_cases hj : jpegBlob.size < b.size
            · rw [if_pos hj] at h
              simp [pure] at h
            · rw [if_neg hj] at h
              simp only [pure, Option.some.injEq, Prod.mk.injEq] at h
              exact h.1.symm
        · rw [if_neg hr] at h
          simp only [pure, Option.some.injEq, Prod.mk.injEq] at h
          exact h.1.symm

/-! ## C1: per-entry adoption, retention and rename recording -/

/-- C1 counterexample: a `ppt/media/a.jpeg` entry whose JPEG fallback is
strictly smaller is adopted in place — the transcoded bytes were smaller than
the original, yet no RenameRecord is produced, refuting "a RenameRecord
exists iff the transcoded bytes were smaller". -/
theorem c1_counterexample :
    compressImage jpegFallbackCodec mediaDemoBlob 4 4 1 = some (jpegDemoBlob, true) ∧
      jpegDemoBlob.size < mediaDemoBlob.size ∧
      stepMedia jpegFallbackCodec 1 mediaDemoDims
          ⟨[("ppt/media/a.jpeg".data, mediaDemoBlob)], [], [], 0⟩ "ppt/media/a.jpeg".data =
        .ok ⟨[("ppt/media/a.jpeg".data, jpegDemoBlob)], [], [], 1⟩ := by
  refine ⟨?_, by decide, ?_⟩ <;> decide

/-- C1 amended: for a media entry processed by the loop of `processDocument`,
the transcode is adopted only when strictly smaller (and then the entry moves
to the path with the adopted encoding's extension); when not strictly smaller
the loop state — bytes, path and rename map — is unchanged; and a
RenameRecord is created iff the transcode was adopted AND the new path
differs from the old one (a `.jpeg` entry recompressed to JPEG is adopted in
place with no rename). -/
theorem c1_amended (codec : Codec) (quality : ℚ) (imageDims : List (Str × ImageDimensions))
    (st : LoopState) (mediaPath : Str) (o : Blob) (dims : ImageDimensions)
    (ho : lookupEntry st.zip mediaPath = some o)
    (hdims : (mapGet imageDims mediaPath).getD ⟨99999, 99999⟩ = dims) :
    (∀ cb, compressImage codec o dims.width dims.height quality = some (cb, false) →
        cb = o ∧ stepMedia codec quality imageDims st mediaPath = .ok st) ∧
      ∀ cb, compressImage codec o dims.width dims.height quality = some (cb, true) →
        cb.size < o.size ∧
          stepMedia codec quality imageDims st mediaPath = .ok
            ⟨writeEntry (removeEntry st.zip mediaPath)
                (replaceLastExt mediaPath (newExtOf cb)) cb,
              if replaceLastExt mediaPath (newExtOf cb) ≠ mediaPath then
                mapSet st.renames mediaPath (replaceLastExt mediaPath (newExtOf cb))
              else st.renames,
              if replaceLastExt mediaPath (newExtOf cb) ≠ mediaPath then
                addToSet st.renamedExtensions (fileExtLower mediaPath)
              else st.renamedExtensions,
              st.imagesCompressed + 1⟩ := by
  constructor
  · intro cb hcomp
    refine ⟨compressImage_not_adopted _ _ _ _ _ _ hcomp, ?_⟩
    unfold stepMedia
    split
    · rfl
    · next imageFile heq =>
      rw [ho] at heq
      injection heq with heq
      subst heq
      rw [hdims]
      dsimp only
      split
      · next heq2 => rw [hcomp] at heq2; cases heq2
      · next cb' w' heq2 =>
        rw [hcomp] at heq2
        injection heq2 with heq2
        injection heq2 with h1 h2
        subst h1
        subst h2
        rfl
  · intro cb hcomp
    refine ⟨compressImage_adopted _ _ _ _ _ _ hcomp, ?_⟩
    unfold stepMedia
    split
    · next heq => rw [ho] at heq; cases heq
    · next imageFile heq =>
      rw [ho] at heq
      injection heq with heq
      subst heq
      rw [hdims]
      dsimp only
      split
      · next heq2 => rw [hcomp] at heq2; cases heq2
      · next cb' w' heq2 =>
        rw [hcomp] at heq2
        injection heq2 with heq2
        injection heq2 with h1 h2
        subst h1
        subst h2
        by_cases hnp : replaceLastExt mediaPath (newExtOf cb) ≠ mediaPath
        · rw [if_pos (by decide), if_pos hnp, if_pos hnp, if_pos hnp]
        · rw [if_pos (by decide), if_neg hnp, if_neg hnp, if_neg hnp]

theorem c1_witness :
    lookupEntry ([("ppt/media/a.jpeg".data, mediaDemoBlob)] : Archive)
        "ppt/media/a.jpeg".data = some mediaDemoBlob ∧
      (mapGet mediaDemoDims "ppt/media/a.jpeg".data).getD ⟨99999, 99999⟩ =
        (⟨4, 4⟩ : ImageDimensions) ∧
      ((∀ cb, compressImage jpegFallbackCodec mediaDemoBlob
            (4 : ℤ) (4 : ℤ) 1 = some (cb, false) →
          cb = mediaDemoBlob ∧
            stepMedia jpegFallbackCodec 1 mediaDemoDims
              ⟨[("ppt/media/a.jpeg".data, mediaDemoBlob)], [], [], 0⟩
              "ppt/media/a.jpeg".data =
              .ok ⟨[("ppt/media/a.jpeg".data, mediaDemoBlob)], [], [], 0⟩) ∧
        ∀ cb, compressImage jpegFallbackCodec mediaDemoBlob
            (4 : ℤ) (4 : ℤ) 1 = some (cb, true) →
          cb.size < mediaDemoBlob.size ∧
            stepMedia jpegFallbackCodec 1 mediaDemoDims
              ⟨[("ppt/media/a.jpeg".data, mediaDemoBlob)], [], [], 0⟩
              "ppt/media/a.jpeg".data =
              .ok ⟨writeEntry
                  (removeEntry [("ppt/media/a.jpeg".data, mediaDemoBlob)]
                    "ppt/media/a.jpeg".data)
                  (replaceLastExt "ppt/media/a.jpeg".data (newExtOf cb)) cb,
                if replaceLastExt "ppt/media/a.jpeg".data (newExtOf cb) ≠
                    "ppt/media/a.jpeg".data then
                  mapSet [] "ppt/media/a.jpeg".data
                    (replaceLastExt "ppt/media/a.jpeg".data (newExtOf cb))
                else [],
                if replaceLastExt "ppt/media/a.jpeg".data (newExtOf cb) ≠
                    "ppt/media/a.jpeg".data then
                  addToSet [] (fileExtLower "ppt/media/a.jpeg".data)
                else [],
                0 + 1⟩) :=
  ⟨by decide, by decide,
    c1_amended jpegFallbackCodec 1 mediaDemoDims
      ⟨[("ppt/media/a.jpeg".data, mediaDemoBlob)], [], [], 0⟩
      "ppt/media/a.jpeg".data mediaDemoBlob ⟨4, 4⟩ (by decide) (by decide)⟩

/-! ## The media loop: case analysis of one step and invariant preservation -/

theorem stepMedia_zip_cases (codec : Codec) (quality : ℚ)
    (imageDims : List (Str × ImageDimensions)) (st : LoopState) (mediaPath : Str)
    (st' : LoopState) (h : stepMedia codec quality imageDims st mediaPath = .ok st') :
    st' = st ∨
      ∃ o cb, lookupEntry st.zip mediaPath = some o ∧ cb.size < o.size ∧
        st'.zip = writeEntry (removeEntry st.zip mediaPath)
          (replaceLastExt mediaPath (newExtOf cb)) cb ∧
        ((replaceLastExt mediaPath (newExtOf cb) = mediaPath ∧
            st'.renames = st.renames ∧
            st'.renamedExtensions = st.renamedExtensions) ∨
          (replaceLastExt mediaPath (newExtOf cb) ≠ mediaPath ∧
            st'.renames = mapSet st.renames mediaPath
              (replaceLastExt mediaPath (newExtOf cb)) ∧
            st'.renamedExtensions = addToSet st.renamedExtensions (fileExtLower mediaPath))) := by
  unfold stepMedia at h
  split at h
  · left
    injection h with h
    exact h.symm
  · next imageFile heq =>
    dsimp only at h
    split at h
    · cases h
    · next cb w heq2 =>
      split at h
      · next hw =>
        split at h
        · next hnp =>
          injection h with h
          subst h
          right
          exact ⟨imageFile, cb, heq,
            compressImage_adopted _ _ _ _ _ _ (by rw [heq2, hw]), rfl,
            Or.inr ⟨hnp, rfl, rfl⟩⟩
        · next hnp =>
          injection h with h
          subst h
          right
          have hnp' : replaceLastExt mediaPath (newExtOf cb) = mediaPath := by
            by_contra hc
            exact hnp hc
          exact ⟨imageFile, cb, heq,
            compressImage_adopted _ _ _ _ _ _ (by rw [heq2, hw]), rfl,
            Or.inl ⟨hnp', rfl, rfl⟩⟩
      · left
        injection h with h
        exact h.symm

theorem foldlM_invariant (f : LoopState → Str → Except Str LoopState) (P : LoopState → Prop) :
    ∀ (l : List Str) (st st' : LoopState),
      (∀ st₁ p st₂, p ∈ l → P st₁ → f st₁ p = .ok st₂ → P st₂) →
      P st → List.foldlM f st l = .ok st' → P st' := by
  intro l
  induction l with
  | nil =>
    intro st st' _ hP h
    rw [List.foldlM_nil] at h
    injection h with h
    rw [← h]
    exact hP
  | cons x xs ih =>
    intro st st' hstep hP h
    rw [List.foldlM_cons] at h
    cases hx : f st x with
    | error e =>
      rw [hx] at h
      simp [Bind.bind, Except.bind] at h
    | ok st₁ =>
      rw [hx] at h
      simp only [Bind.bind, Except.bind] at h
      exact ih st₁ st' (fun a p b hp => hstep a p b (List.mem_cons_of_mem x hp))
        (hstep st x st₁ (List.mem_cons_self x xs) hP hx) h

theorem mapSet_ne_nil {β : Type} (m : List (Str × β)) (k : Str) (v : β) :
    mapSet m k v ≠ [] := by
  cases m with
  | nil => simp [mapSet]
  | cons e rest =>
    simp only [mapSet]
    split <;> simp

theorem pathsNodup_removeEntry (z : Archive) (p : Str) (h : pathsNodup z) :
    pathsNodup (removeEntry z p) := by
  unfold pathsNodup at h ⊢
  unfold removeEntry
  induction z with
  | nil => simp
  | cons e rest ih =>
    simp only [List.map_cons, List.nodup_cons] at h
    simp only [List.filter]
    split
    · simp only [List.map_cons, List.nodup_cons]
      refine ⟨?_, ih h.2⟩
      intro hc
      apply h.1
      obtain ⟨x, hx1, hx2⟩ := List.mem_map.mp hc
      exact hx2 ▸ List.mem_map_of_mem Prod.fst (List.mem_of_mem_filter hx1)
    · exact ih h.2

theorem pathsNodup_writeEntry (z : Archive) (p : Str) (b : Blob) (h : pathsNodup z) :
    pathsNodup (writeEntry z p b) := by
  unfold pathsNodup at h ⊢
  induction z with
  | nil => simp [writeEntry]
  | cons e rest ih =>
    simp only [List.map_cons, List.nodup_cons] at h
    simp only [writeEntry]
    by_cases he : e.1 = p
    · rw [if_pos he]
      simp only [List.map_cons, List.nodup_cons]
      refine ⟨?_, h.2⟩
      rw [← he]
      exact h.1
    · rw [if_neg he]
      simp only [List.map_cons, List.nodup_cons]
      refine ⟨?_, ih h.2⟩
      intro hc
      obtain ⟨x, hx1, hx2⟩ := List.mem_map.mp hc
      rcases mem_writeEntry hx1 with h1 | h1
      · exact h.1 (hx2 ▸ List.mem_map_of_mem Prod.fst h1)
      · apply he
        rw [h1] at hx2
        exact hx2.symm

theorem exists_dropWhile_eq (c : Char) : ∀ (u : Str), c ∈ u →
    ∃ b, List.dropWhile (fun x => x ≠ c) u = c :: b := by
  intro u
  induction u with
  | nil => intro h; simp at h
  | cons d t ih =>
    intro h
    rw [List.dropWhile_cons]
    by_cases hd : d = c
    · subst hd
      rw [if_neg (by simp)]
      exact ⟨t, rfl⟩
    · rw [if_pos (by simp [hd])]
      have h1 : c ∈ t := by
        rcases List.mem_cons.mp h with h2 | h2
        · exact absurd h2.symm hd
        · exact h2
      exact ih h1

theorem takeWhile_eq_self_of_all {p : Char → Bool} {l : Str} (h : ∀ c ∈ l, p c = true) :
    List.takeWhile p l = l := by
  have := @takeWhile_append_all p l [] h
  simpa using this

theorem splitLastDot_eq {p pre ex : Str} (h : splitLastDot p = some (pre, ex)) :
    p = pre ++ '.' :: ex ∧ '.' ∉ ex := by
  unfold splitLastDot at h
  dsimp only at h
  split at h
  · next hcond =>
    injection h with h
    injection h with h1 h2
    set A := List.takeWhile (fun c => c ≠ '.') p.reverse with hA
    have hex : '.' ∉ ex := by
      rw [← h2]
      intro hc
      have := List.mem_takeWhile_imp (List.mem_reverse.mp hc)
      simp at this
    refine ⟨?_, hex⟩
    have hdotrev : '.' ∈ p.reverse := by
      by_contra hc
      have hall : ∀ c ∈ p.reverse, (fun x => decide (x ≠ '.')) c = true := by
        intro c hcmem
        simp only [decide_eq_true_eq]
        intro hcd
        exact hc (hcd ▸ hcmem)
      have hself := takeWhile_eq_self_of_all hall
      rw [← hA] at hself
      rw [hself] at hcond
      simp at hcond
    obtain ⟨b, hb⟩ := exists_dropWhile_eq '.' p.reverse hdotrev
    have hsplit : p.reverse = A ++ '.' :: b := by
      conv_lhs => rw [← List.takeWhile_append_dropWhile
        (p := fun x => decide (x ≠ '.')) (l := p.reverse)]
      rw [hb]
    have hp : p = b.reverse ++ '.' :: A.reverse := by
      have h3 : p = (A ++ '.' :: b).reverse := by
        rw [← hsplit, List.reverse_reverse]
      rw [h3]
      simp
    have hlenp : p.length = b.reverse.length + 1 + A.length := by
      rw [hp]
      simp
      omega
    have hpre : pre = b.reverse := by
      rw [← h1]
      have hl : p.length - A.length - 1 = b.reverse.length := by omega
      rw [hl, hp, List.take_left]
    rw [hpre, ← h2, hp]
  · cases h

/-- Replacing the extension after the final dot never disturbs a dot-free
prefix such as the media directory. -/
theorem startsWith_replaceLastExt {pfx path : Str} (ext2 : Str)
    (hpfx : jsStartsWith pfx path = true) (hdot : '.' ∉ pfx) :
    jsStartsWith pfx (replaceLastExt path ext2) = true := by
  unfold replaceLastExt
  cases hsplit : splitLastDot path with
  | none => exact hpfx
  | some pe =>
    obtain ⟨hp, _⟩ := splitLastDot_eq hsplit
    unfold jsStartsWith at hpfx ⊢
    rw [List.isPrefixOf_iff_prefix] at hpfx ⊢
    have hprepre : pe.1 <+: path := by rw [hp]; exact List.prefix_append _ _
    have hlen : pfx.length ≤ pe.1.length := by
      by_contra hlt
      push_neg at hlt
      have hppfx : pe.1 <+: pfx :=
        List.prefix_of_prefix_length_le hprepre hpfx (le_of_lt hlt)
      obtain ⟨d, hd⟩ := hppfx
      have hdn : d ≠ [] := by
        intro hc
        rw [hc, List.append_nil] at hd
        rw [← hd] at hlt
        omega
      obtain ⟨t, ht⟩ := hpfx
      rw [← hd] at ht
      rw [hp, List.append_assoc] at ht
      have hdt : d ++ t = '.' :: pe.2 := List.append_cancel_left ht
      apply hdot
      rw [← hd]
      apply List.mem_append_right
      cases d with
      | nil => exact absurd rfl hdn
      | cons d0 d' =>
        have : d0 = '.' := by
          have := congrArg (fun l => l.head?) hdt
          simpa using this
        rw [this]
        simp
    have hpre : pfx <+: pe.1 := List.prefix_of_prefix_length_le hpfx hprepre hlen
    exact hpre.trans (List.prefix_append _ _)

/-! ## Path and extension facts used by the frame analysis -/

theorem newExtOf_cases (cb : Blob) : newExtOf cb = "webp".data ∨ newExtOf cb = "jpeg".data := by
  unfold newExtOf
  split
  · left; rfl
  · right; rfl

theorem replaceLastExt_newExt_cases (mediaPath : Str) (cb : Blob) :
    replaceLastExt mediaPath (newExtOf cb) = mediaPath ∨
      fileExtLower (replaceLastExt mediaPath (newExtOf cb)) = "webp".data ∨
      fileExtLower (replaceLastExt mediaPath (newExtOf cb)) = "jpeg".data := by
  unfold replaceLastExt
  cases hsplit : splitLastDot mediaPath with
  | none => left; rfl
  | some pe =>
    right
    rcases newExtOf_cases cb with hne | hne <;> rw [hne]
    · left
      rw [fileExtLower_append_dot _ _ (by decide)]
      decide
    · right
      rw [fileExtLower_append_dot _ _ (by decide)]
      decide

theorem fileExtLower_of_rels {q : Str} (h : jsEndsWith ".rels".data q = true) :
    fileExtLower q = "rels".data := by
  unfold jsEndsWith at h
  rw [List.isSuffixOf_iff_suffix] at h
  obtain ⟨a, ha⟩ := h
  have hq : q = a ++ '.' :: "rels".data := by rw [← ha]
  rw [hq, fileExtLower_append_dot _ _ (by decide)]
  decide

/-! ## Frame lemmas for updateRelationships and updateContentTypes -/

theorem mem_relsStep {frn : List (Str × Str)} {z : Archive} {rp : Str} {x : Str × Blob}
    (h : x ∈ relsStep frn z rp) : ∃ b₀, (x.1, b₀) ∈ z := by
  unfold relsStep at h
  split at h
  · exact ⟨x.2, by simpa using h⟩
  · next relsFile heq =>
    dsimp only at h
    split at h
    · rcases mem_writeEntry h with h1 | h1
      · exact ⟨x.2, by simpa using h1⟩
      · refine ⟨relsFile, ?_⟩
        rw [h1]
        exact mem_of_lookupEntry_some heq
    · exact ⟨x.2, by simpa using h⟩

theorem mem_foldl_relsStep {frn : List (Str × Str)} :
    ∀ (l : List Str) (z : Archive) (x : Str × Blob),
      x ∈ List.foldl (relsStep frn) z l → ∃ b₀, (x.1, b₀) ∈ z := by
  intro l
  induction l with
  | nil => intro z x h; exact ⟨x.2, by simpa using h⟩
  | cons q t ih =>
    intro z x h
    rw [List.foldl_cons] at h
    obtain ⟨b₀, hb₀⟩ := ih (relsStep frn z q) x h
    obtain ⟨b₁, hb₁⟩ := mem_relsStep hb₀
    exact ⟨b₁, hb₁⟩

theorem mem_updateRelationships {z : Archive} {rn : List (Str × Str)} {x : Str × Blob}
    (h : x ∈ updateRelationships z rn) : ∃ b₀, (x.1, b₀) ∈ z := by
  unfold updateRelationships at h
  exact mem_foldl_relsStep _ _ _ h

theorem lookup_updateRelationships_not_rels {z : Archive} {rn : List (Str × Str)} {q : Str}
    (h : jsEndsWith ".rels".data q = false) :
    lookupEntry (updateRelationships z rn) q = lookupEntry z q := by
  unfold updateRelationships
  apply foldl_relsStep_not_mem
  intro hc
  rw [List.mem_filter] at hc
  rw [hc.2] at h
  cases h

theorem lookup_updateContentTypes_ne {z : Archive} {rx : List Str} {fmt : ImageFormat}
    {q : Str} (h : q ≠ ctPath) :
    lookupEntry (updateContentTypes z rx fmt) q = lookupEntry z q := by
  unfold updateContentTypes
  split
  · rfl
  · split
    · rfl
    · dsimp only
      split
      · rfl
      · exact lookupEntry_writeEntry_ne _ _ _ _ h

theorem mem_updateContentTypes {z : Archive} {rx : List Str} {fmt : ImageFormat}
    {x : Str × Blob} (h : x ∈ updateContentTypes z rx fmt) : x ∈ z ∨ x.1 = ctPath := by
  unfold updateContentTypes at h
  split at h
  · left; exact h
  · split at h
    · left; exact h
    · dsimp only at h
      split at h
      · left; exact h
      · rcases mem_writeEntry h with h1 | h1
        · left; exact h1
        · right; rw [h1]

theorem applyRenamesToXml_no_occ (frn : List (Str × Str)) (x : Str)
    (h : ∀ r ∈ frn, occurs r.1 x = false) : applyRenamesToXml frn x = (x, false) := by
  unfold applyRenamesToXml
  induction frn with
  | nil => rfl
  | cons r t ih =>
    rw [List.foldl_cons]
    rw [if_neg (by rw [h r (by simp)]; simp)]
    exact ih (fun r' hr' => h r' (List.mem_cons_of_mem r hr'))

/-! ## Conclusions of the media loop -/

theorem mediaLoop_nodup (codec : Codec) (q : ℚ) (imageDims : List (Str × ImageDimensions))
    (zip : Archive) (mediaFiles : List Str) (st : LoopState)
    (hloop : mediaLoop codec q imageDims zip mediaFiles = .ok st)
    (hnd : pathsNodup zip) : pathsNodup st.zip := by
  unfold mediaLoop at hloop
  refine foldlM_invariant _ (fun s => pathsNodup s.zip) mediaFiles _ _ ?_ hnd hloop
  intro st₁ p st₂ _ hP hstep
  rcases stepMedia_zip_cases _ _ _ _ _ _ hstep with h1 | ⟨o, cb, _, _, hzip, _⟩
  · rw [h1]; exact hP
  · rw [hzip]
    exact pathsNodup_writeEntry _ _ _ (pathsNodup_removeEntry _ _ hP)

/-- Entries that are not raster media under the active prefix and do not carry
a rename-target extension are untouched by the media loop. -/
theorem mediaLoop_frame (codec : Codec) (q : ℚ) (imageDims : List (Str × ImageDimensions))
    (zip : Archive) (mpfx : Str) (st : LoopState)
    (hloop : mediaLoop codec q imageDims zip (mediaFilesOf zip mpfx) = .ok st)
    (qq : Str)
    (hq : jsStartsWith mpfx qq = false ∨ isRasterImage qq = false)
    (hw : fileExtLower qq ≠ "webp".data) (hj : fileExtLower qq ≠ "jpeg".data) :
    lookupEntry st.zip qq = lookupEntry zip qq := by
  unfold mediaLoop at hloop
  refine foldlM_invariant _ (fun s => lookupEntry s.zip qq = lookupEntry zip qq)
    _ _ _ ?_ rfl hloop
  intro st₁ p st₂ hp hP hstep
  have hpmem : jsStartsWith mpfx p = true ∧ isRasterImage p = true := by
    unfold mediaFilesOf at hp
    rw [List.mem_filter] at hp
    have := hp.2
    simp only [Bool.and_eq_true] at this
    exact this
  have hqp : qq ≠ p := by
    intro hc
    subst hc
    rcases hq with h1 | h1
    · rw [hpmem.1] at h1; cases h1
    · rw [hpmem.2] at h1; cases h1
  rcases stepMedia_zip_cases _ _ _ _ _ _ hstep with h1 | ⟨o, cb, _, _, hzip, _⟩
  · rw [h1]; exact hP
  · rw [hzip]
    have hqnp : qq ≠ replaceLastExt p (newExtOf cb) := by
      rcases replaceLastExt_newExt_cases p cb with hc | hc | hc
      · rw [hc]; exact hqp
      · intro he; exact hw (he ▸ hc)
      · intro he; exact hj (he ▸ hc)
    rw [lookupEntry_writeEntry_ne _ _ _ _ hqnp, lookupEntry_removeEntry_ne _ _ _ hqp]
    exact hP

/-- Every entry under the active media prefix after the loop carries either an
extension already present under that prefix in the input, or a rename-target
extension. -/
theorem mediaLoop_exts (codec : Codec) (q : ℚ) (imageDims : List (Str × ImageDimensions))
    (zip : Archive) (mpfx : Str) (st : LoopState)
    (hloop : mediaLoop codec q imageDims zip (mediaFilesOf zip mpfx) = .ok st) :
    ∀ e ∈ st.zip, jsStartsWith mpfx e.1 = true →
      fileExtLower e.1 ∈ mediaDirExts mpfx zip ∨
        fileExtLower e.1 = "webp".data ∨ fileExtLower e.1 = "jpeg".data := by
  unfold mediaLoop at hloop
  refine foldlM_invariant _
    (fun s => ∀ e ∈ s.zip, jsStartsWith mpfx e.1 = true →
      fileExtLower e.1 ∈ mediaDirExts mpfx zip ∨
        fileExtLower e.1 = "webp".data ∨ fileExtLower e.1 = "jpeg".data)
    _ _ _ ?_ ?_ hloop
  · intro st₁ p st₂ hp hP hstep e he hstart
    rcases stepMedia_zip_cases _ _ _ _ _ _ hstep with h1 | ⟨o, cb, hlook, _, hzip, _⟩
    · rw [h1] at he
      exact hP e he hstart
    · rw [hzip] at he
      rcases mem_writeEntry he with h1 | h1
      · exact hP e (mem_removeEntry h1) hstart
      · rcases replaceLastExt_newExt_cases p cb with hc | hc | hc
        · have hep : e.1 = p := by rw [h1, hc]
          have hpmem : (p, o) ∈ st₁.zip := mem_of_lookupEntry_some hlook
          have := hP (p, o) hpmem (by rw [← hep]; exact hstart)
          rw [hep]
          exact this
        · right; left
          rw [h1]
          exact hc
        · right; right
          rw [h1]
          exact hc
  · intro e he hstart
    left
    unfold mediaDirExts
    apply List.mem_map_of_mem fileExtLower
    rw [List.mem_filter]
    exact ⟨List.mem_map_of_mem Prod.fst he, hstart⟩

theorem prefixes_disjoint (p : Str) :
    ¬(jsStartsWith "ppt/media/".data p = true ∧ jsStartsWith "word/media/".data p = true) := by
  rintro ⟨h1, h2⟩
  unfold jsStartsWith at h1 h2
  rw [List.isPrefixOf_iff_prefix] at h1 h2
  have h3 : "ppt/media/".data <+: "word/media/".data :=
    List.prefix_of_prefix_length_le h1 h2 (by decide)
  exact absurd h3 (by decide)

/-- Entries whose path does not begin with the active media prefix are
untouched by the media loop: both removal targets and rename targets lie
under the prefix. -/
theorem mediaLoop_frame_out (codec : Codec) (q : ℚ)
    (imageDims : List (Str × ImageDimensions)) (zip : Archive) (mpfx : Str) (st : LoopState)
    (hdot : '.' ∉ mpfx)
    (hloop : mediaLoop codec q imageDims zip (mediaFilesOf zip mpfx) = .ok st)
    (qq : Str) (hq : jsStartsWith mpfx qq = false) :
    lookupEntry st.zip qq = lookupEntry zip qq := by
  unfold mediaLoop at hloop
  refine foldlM_invariant _ (fun s => lookupEntry s.zip qq = lookupEntry zip qq)
    _ _ _ ?_ rfl hloop
  intro st₁ p st₂ hp hP hstep
  have hpmem : jsStartsWith mpfx p = true ∧ isRasterImage p = true := by
    unfold mediaFilesOf at hp
    rw [List.mem_filter] at hp
    have := hp.2
    simp only [Bool.and_eq_true] at this
    exact this
  have hqp : qq ≠ p := by
    intro hc
    rw [hc, hpmem.1] at hq
    cases hq
  rcases stepMedia_zip_cases _ _ _ _ _ _ hstep with h1 | ⟨o, cb, _, _, hzip, _⟩
  · rw [h1]; exact hP
  · rw [hzip]
    have hqnp : qq ≠ replaceLastExt p (newExtOf cb) := by
      intro hc
      have hnpstart := startsWith_replaceLastExt (newExtOf cb) hpmem.1 hdot
      rw [← hc] at hnpstart
      rw [hnpstart] at hq
      cases hq
    rw [lookupEntry_writeEntry_ne _ _ _ _ hqnp, lookupEntry_removeEntry_ne _ _ _ hqp]
    exact hP

theorem relsTransform_no_occ (frn : List (Str × Str)) (b : Blob)
    (h : ∀ r ∈ frn, occurs r.1 b.data = false) : relsTransform frn b = b := by
  unfold relsTransform
  rw [applyRenamesToXml_no_occ frn b.data h]
  rfl

theorem updateContentTypes_no_op (z : Archive) (rx : List Str) (fmt : ImageFormat)
    (b : Blob) (hct : lookupEntry z ctPath = some b)
    (hcount : 0 < countExtDecl (contentTypesFor fmt).1 b.data) :
    updateContentTypes z rx fmt = z := by
  by_cases hrx : rx = []
  · unfold updateContentTypes
    rw [if_pos hrx]
  · rw [updateContentTypes_eq z rx fmt b hrx hct,
      if_pos (extDeclTest_of_countPos _ _ hcount)]

/-! ## C10: what processDocument may modify -/

/-- C10 amended: a successful `processDocument` run writes only paths under
the format's media directory (including rename targets), `.rels` parts whose
text contained a renamed filename, and `[Content_Types].xml`: every input
entry at any other path survives byte-for-byte; a `.rels` part containing no
renamed filename is unchanged; and when no rename occurred neither any
`.rels` part nor the content-types part is modified. (The claim's restriction
of the first kind to "media entries whose transcode was strictly smaller" is
refuted by the counterexample: a rename target may overwrite a sibling media
entry.) -/
theorem c10_amended (deps : Deps) (fmt : ImageFormat) (name : Str) (zip : Archive)
    (quality dpi : ℚ) (res : ProcResult)
    (hrun : processDocument deps fmt name zip quality dpi = .ok res)
    (hnd : pathsNodup zip) :
    (∀ p b, (p, b) ∈ zip →
        jsStartsWith "ppt/media/".data p = false →
        jsStartsWith "word/media/".data p = false →
        jsEndsWith ".rels".data p = false → p ≠ ctPath →
        lookupEntry res.zip p = some b) ∧
      ∃ st, mediaLoop deps.codec quality
          (if jsEndsWith ".pptx".data (toLowerStr name) then deps.parsePptxImages zip dpi
            else deps.parseDocxImages zip dpi) zip
          (mediaFilesOf zip
            (if jsEndsWith ".pptx".data (toLowerStr name) then "ppt/media/".data
              else "word/media/".data)) = .ok st ∧
        (∀ p b, (p, b) ∈ zip → jsEndsWith ".rels".data p = true →
          (∀ r ∈ st.renames, occurs (lastPathSeg r.1) b.data = false) →
          lookupEntry res.zip p = some b) ∧
        (st.renames = [] →
          ∀ p b, (p, b) ∈ zip → (jsEndsWith ".rels".data p = true ∨ p = ctPath) →
          lookupEntry res.zip p = some b) := by
  unfold processDocument at hrun
  dsimp only at hrun
  split at hrun
  · cases hrun
  · split at hrun
    · cases hrun
    · next st hloop =>
      injection hrun with hrun
      subst hrun
      have hdotm : '.' ∉ (if jsEndsWith ".pptx".data (toLowerStr name) then
          "ppt/media/".data else "word/media/".data) := by
        split <;> decide
      have hframeout : ∀ qq, jsStartsWith (if jsEndsWith ".pptx".data (toLowerStr name) then
          "ppt/media/".data else "word/media/".data) qq = false →
          lookupEntry st.zip qq = lookupEntry zip qq :=
        mediaLoop_frame_out _ _ _ _ _ _ hdotm hloop
      have hframeext : ∀ qq, isRasterImage qq = false →
          fileExtLower qq ≠ "webp".data → fileExtLower qq ≠ "jpeg".data →
          lookupEntry st.zip qq = lookupEntry zip qq := fun qq h1 h2 h3 =>
        mediaLoop_frame _ _ _ _ _ _ hloop qq (Or.inr h1) h2 h3
      have hndst : pathsNodup st.zip := mediaLoop_nodup _ _ _ _ _ _ hloop hnd
      have hrelsfacts : ∀ (p : Str), jsEndsWith ".rels".data p = true →
          isRasterImage p = false ∧ fileExtLower p ≠ "webp".data ∧
            fileExtLower p ≠ "jpeg".data ∧ p ≠ ctPath := by
        intro p hrels
        have hext := fileExtLower_of_rels hrels
        refine ⟨?_, ?_, ?_, ?_⟩
        · unfold isRasterImage
          rw [hext]
          decide
        · rw [hext]; decide
        · rw [hext]; decide
        · intro hc
          rw [hc] at hrels
          exact absurd hrels (by decide)
      refine ⟨?_, st, hloop, ?_, ?_⟩
      · intro p b hmem hp1 hp2 hrels hct
        have hl0 : lookupEntry zip p = some b := lookupEntry_of_mem_nodup _ _ _ hnd hmem
        have hl1 : lookupEntry st.zip p = some b := by
          rw [hframeout p (by split <;> assumption)]
          exact hl0
        show lookupEntry (if st.renames ≠ [] then
          updateContentTypes (updateRelationships st.zip st.renames)
            st.renamedExtensions fmt else st.zip) p = some b
        split
        · rw [lookup_updateContentTypes_ne hct, lookup_updateRelationships_not_rels hrels]
          exact hl1
        · exact hl1
      · intro p b hmem hrels hnoocc
        obtain ⟨hnr, hw, hj, hctne⟩ := hrelsfacts p hrels
        have hl0 : lookupEntry zip p = some b := lookupEntry_of_mem_nodup _ _ _ hnd hmem
        have hl1 : lookupEntry st.zip p = some b := by
          rw [hframeext p hnr hw hj]
          exact hl0
        show lookupEntry (if st.renames ≠ [] then
          updateContentTypes (updateRelationships st.zip st.renames)
            st.renamedExtensions fmt else st.zip) p = some b
        split
        · rw [lookup_updateContentTypes_ne hctne]
          have hmemst : (p, b) ∈ st.zip := mem_of_lookupEntry_some hl1
          unfold updateRelationships
          rw [foldl_relsStep_mem _ _ _ _ _ (List.Nodup.filter _ hndst)
            (by rw [List.mem_filter]
                exact ⟨List.mem_map_of_mem Prod.fst hmemst, hrels⟩) hl1]
          rw [relsTransform_no_occ _ _ ?_]
          intro r hr
          rw [List.mem_map] at hr
          obtain ⟨r₀, hr₀, hr₀eq⟩ := hr
          rw [← hr₀eq]
          exact hnoocc r₀ hr₀
        · exact hl1
      · intro hre p b hmem hor
        show lookupEntry (if st.renames ≠ [] then
          updateContentTypes (updateRelationships st.zip st.renames)
            st.renamedExtensions fmt else st.zip) p = some b
        rw [if_neg (by simp [hre])]
        have hl0 : lookupEntry zip p = some b := lookupEntry_of_mem_nodup _ _ _ hnd hmem
        rcases hor with hrels | hctp
        · obtain ⟨hnr, hw, hj, _⟩ := hrelsfacts p hrels
          rw [hframeext p hnr hw hj]
          exact hl0
        · subst hctp
          rw [hframeout ctPath (by split <;> decide)]
          exact hl0

set_option maxRecDepth 4000 in
/-- C10 counterexample: processing `clobberZip` adopts `a.jpg`'s smaller JPEG
fallback at the renamed path `a.jpeg`, overwriting the distinct input entry
`a.jpeg` with bytes that are not smaller than the bytes previously stored
there — a media entry is modified although its own transcode was never
adopted as strictly smaller. -/
theorem c10_counterexample :
    processDocument clobberDeps ImageFormat.webp "t.pptx".data clobberZip 1 96 =
        .ok ⟨[("ppt/media/a.jpeg".data, jpegDemoBlob)], 1, 2, "t_compressed.pptx".data⟩ ∧
      ("ppt/media/a.jpeg".data, smallJpegBlob) ∈ clobberZip ∧
      lookupEntry [("ppt/media/a.jpeg".data, jpegDemoBlob)] "ppt/media/a.jpeg".data =
        some jpegDemoBlob ∧
      jpegDemoBlob ≠ smallJpegBlob ∧
      ¬jpegDemoBlob.size < smallJpegBlob.size := by
  refine ⟨?_, by decide, by decide, by decide, by decide⟩
  decide

set_option maxRecDepth 4000 in
theorem c10_witness :
    processDocument noGainDeps ImageFormat.webp "d.docx".data c3Zip 1 96 =
        .ok ⟨c3Zip, 0, 1, "d_compressed.docx".data⟩ ∧
      pathsNodup c3Zip ∧
      ((∀ p b, (p, b) ∈ c3Zip →
          jsStartsWith "ppt/media/".data p = false →
          jsStartsWith "word/media/".data p = false →
          jsEndsWith ".rels".data p = false → p ≠ ctPath →
          lookupEntry c3Zip p = some b) ∧
        ∃ st, mediaLoop noGainDeps.codec 1
            (if jsEndsWith ".pptx".data (toLowerStr "d.docx".data) then
              noGainDeps.parsePptxImages c3Zip 96 else noGainDeps.parseDocxImages c3Zip 96)
            c3Zip
            (mediaFilesOf c3Zip (if jsEndsWith ".pptx".data (toLowerStr "d.docx".data) then
              "ppt/media/".data else "word/media/".data)) = .ok st ∧
          (∀ p b, (p, b) ∈ c3Zip → jsEndsWith ".rels".data p = true →
            (∀ r ∈ st.renames, occurs (lastPathSeg r.1) b.data = false) →
            lookupEntry c3Zip p = some b) ∧
          (st.renames = [] →
            ∀ p b, (p, b) ∈ c3Zip → (jsEndsWith ".rels".data p = true ∨ p = ctPath) →
            lookupEntry c3Zip p = some b)) :=
  ⟨by decide, by unfold pathsNodup; decide,
    c10_amended noGainDeps ImageFormat.webp "d.docx".data c3Zip 1 96
      ⟨c3Zip, 0, 1, "d_compressed.docx".data⟩ (by decide) (by unfold pathsNodup; decide)⟩

/-! ## C3: content-type coverage of the media extensions -/

set_option maxRecDepth 4000 in
/-- C3 counterexample: a successful run over an archive whose content-types
part declares nothing leaves a png media entry whose extension has zero (not
exactly one) `Default` declarations in the output. -/
theorem c3_counterexample :
    processDocument noGainDeps ImageFormat.webp "d.docx".data c3Zip 1 96 =
        .ok ⟨c3Zip, 0, 1, "d_compressed.docx".data⟩ ∧
      ("word/media/a.png".data, mediaDemoBlob) ∈ c3Zip ∧
      jsStartsWith "word/media/".data "word/media/a.png".data = true ∧
      fileExtLower "word/media/a.png".data = "png".data ∧
      lookupEntry c3Zip ctPath = some ctDemoBlob ∧
      countExtDecl "png".data ctDemoBlob.data = 0 := by
  refine ⟨?_, by decide, by decide, by decide, by decide, by decide⟩
  decide

/-- C3 amended: provided every extension occurring among the input archive's
media-directory entries — and also `webp`, `jpeg` and the configured target
format's extension — has exactly one `Default` declaration in the input
`[Content_Types].xml`, then after a successful run the content-types part is
unchanged and every extension occurring among the output's media-directory
entries still has exactly one `Default` declaration. (The code never adds
declarations for extensions the input registry was already missing, as the
counterexample shows.) -/
theorem c3_amended (deps : Deps) (fmt : ImageFormat) (name : Str) (zip : Archive)
    (quality dpi : ℚ) (res : ProcResult) (cb : Blob)
    (hrun : processDocument deps fmt name zip quality dpi = .ok res)
    (hnd : pathsNodup zip)
    (hct : lookupEntry zip ctPath = some cb)
    (H1 : ∀ e ∈ mediaDirExts "ppt/media/".data zip ++ mediaDirExts "word/media/".data zip,
        countExtDecl e cb.data = 1)
    (H2w : countExtDecl "webp".data cb.data = 1)
    (H2j : countExtDecl "jpeg".data cb.data = 1)
    (H2f : countExtDecl (contentTypesFor fmt).1 cb.data = 1) :
    lookupEntry res.zip ctPath = some cb ∧
      ∀ p b, (p, b) ∈ res.zip →
        (jsStartsWith "ppt/media/".data p = true ∨
          jsStartsWith "word/media/".data p = true) →
        countExtDecl (fileExtLower p) cb.data = 1 := by
  unfold processDocument at hrun
  dsimp only at hrun
  split at hrun
  · cases hrun
  · split at hrun
    · cases hrun
    · next st hloop =>
      injection hrun with hrun
      subst hrun
      have hdotm : '.' ∉ (if jsEndsWith ".pptx".data (toLowerStr name) then
          "ppt/media/".data else "word/media/".data) := by
        split <;> decide
      have hframeout := mediaLoop_frame_out _ _ _ _ _ _ hdotm hloop
      have hndst : pathsNodup st.zip := mediaLoop_nodup _ _ _ _ _ _ hloop hnd
      have hexts := mediaLoop_exts _ _ _ _ _ _ hloop
      have hctstart : jsStartsWith (if jsEndsWith ".pptx".data (toLowerStr name) then
          "ppt/media/".data else "word/media/".data) ctPath = false := by
        split <;> decide
      have hl1 : lookupEntry st.zip ctPath = some cb := by
        rw [hframeout ctPath hctstart]
        exact hct
      have hl2 : lookupEntry (updateRelationships st.zip st.renames) ctPath = some cb := by
        rw [lookup_updateRelationships_not_rels (by decide)]
        exact hl1
      have hnoop : updateContentTypes (updateRelationships st.zip st.renames)
          st.renamedExtensions fmt = updateRelationships st.zip st.renames :=
        updateContentTypes_no_op _ _ _ cb hl2 (by rw [H2f]; decide)
      constructor
      · show lookupEntry (if st.renames ≠ [] then
          updateContentTypes (updateRelationships st.zip st.renames)
            st.renamedExtensions fmt else st.zip) ctPath = some cb
        split
        · rw [hnoop]
          exact hl2
        · exact hl1
      · intro p b hmem hstart
        have hmem' : ∃ b₀, (p, b₀) ∈ st.zip := by
          revert hmem
          show (p, b) ∈ (if st.renames ≠ [] then
            updateContentTypes (updateRelationships st.zip st.renames)
              st.renamedExtensions fmt else st.zip) → _
          intro hmem
          split at hmem
          · rw [hnoop] at hmem
            obtain ⟨b₀, hb₀⟩ := mem_updateRelationships hmem
            exact ⟨b₀, hb₀⟩
          · exact ⟨b, hmem⟩
        obtain ⟨b₀, hb₀⟩ := hmem'
        by_cases hpp : jsEndsWith ".pptx".data (toLowerStr name) = true
        · rw [if_pos hpp] at hexts hframeout
          rcases hstart with hsp | hsw
          · rcases hexts (p, b₀) hb₀ hsp with hin | hin | hin
            · exact H1 _ (List.mem_append_left _ hin)
            · rw [hin]; exact H2w
            · rw [hin]; exact H2j
          · have hppfalse : jsStartsWith "ppt/media/".data p = false := by
              rcases hval : jsStartsWith "ppt/media/".data p with _ | _
              · rfl
              · exact absurd ⟨hval, hsw⟩ (prefixes_disjoint p)
            have hlp : lookupEntry zip p = some b₀ := by
              rw [← hframeout p hppfalse]
              exact lookupEntry_of_mem_nodup _ _ _ hndst hb₀
            apply H1
            apply List.mem_append_right
            unfold mediaDirExts
            apply List.mem_map_of_mem fileExtLower
            rw [List.mem_filter]
            exact ⟨List.mem_map_of_mem Prod.fst (mem_of_lookupEntry_some hlp), hsw⟩
        · rw [if_neg hpp] at hexts hframeout
          rcases hstart with hsp | hsw
          · have hwfalse : jsStartsWith "word/media/".data p = false := by
              rcases hval : jsStartsWith "word/media/".data p with _ | _
              · rfl
              · exact absurd ⟨hsp, hval⟩ (prefixes_disjoint p)
            have hlp : lookupEntry zip p = some b₀ := by
              rw [← hframeout p hwfalse]
              exact lookupEntry_of_mem_nodup _ _ _ hndst hb₀
            apply H1
            apply List.mem_append_left
            unfold mediaDirExts
            apply List.mem_map_of_mem fileExtLower
            rw [List.mem_filter]
            exact ⟨List.mem_map_of_mem Prod.fst (mem_of_lookupEntry_some hlp), hsp⟩
          · rcases hexts (p, b₀) hb₀ hsw with hin | hin | hin
            · exact H1 _ (List.mem_append_right _ hin)
            · rw [hin]; exact H2w
            · rw [hin]; exact H2j

set_option maxRecDepth 4000 in
theorem c3_witness :
    processDocument noGainDeps ImageFormat.webp "d.docx".data c3FullZip 1 96 =
        .ok ⟨c3FullZip, 0, 1, "d_compressed.docx".data⟩ ∧
      pathsNodup c3FullZip ∧
      lookupEntry c3FullZip ctPath = some ctFullBlob ∧
      (∀ e ∈ mediaDirExts "ppt/media/".data c3FullZip ++
          mediaDirExts "word/media/".data c3FullZip,
        countExtDecl e ctFullBlob.data = 1) ∧
      countExtDecl "webp".data ctFullBlob.data = 1 ∧
      countExtDecl "jpeg".data ctFullBlob.data = 1 ∧
      countExtDecl (contentTypesFor ImageFormat.webp).1 ctFullBlob.data = 1 ∧
      (lookupEntry c3FullZip ctPath = some ctFullBlob ∧
        ∀ p b, (p, b) ∈ c3FullZip →
          (jsStartsWith "ppt/media/".data p = true ∨
            jsStartsWith "word/media/".data p = true) →
          countExtDecl (fileExtLower p) ctFullBlob.data = 1) :=
  ⟨by decide, by unfold pathsNodup; decide, by decide, by decide, by decide, by decide,
    by decide,
    c3_amended noGainDeps ImageFormat.webp "d.docx".data c3FullZip 1 96
      ⟨c3FullZip, 0, 1, "d_compressed.docx".data⟩ ctFullBlob (by decide)
      (by unfold pathsNodup; decide) (by decide) (by decide) (by decide) (by decide)
      (by decide)⟩

end PDC

